import Mathlib

/-!
Verification of the distributed-processor compiler's IR pipeline
(`distproc/ir/passes.py`, `distproc/compiler.py`).

The development shallowly embeds, stage by stage, the parts of the code the
claims speak about: the control-flow flattener (`FlattenProgram`), the CFG
edge generator (`GenerateCFG`), the software and hardware virtual-Z
resolvers (`ResolveVirtualZ`, `ResolveHWVirtualZ`), the scheduler
(`Schedule`), the schedule linter (`LintSchedule`), and the compiled-program
save/load pair (`CompiledProgram.save`, `load_compiled_program`).
Python dicts keyed by channels or cores are embedded as total functions
together with explicit domain lists wherever the code takes maxima over
`dict.values()`; floating-point seconds are embedded as rationals.
-/

set_option linter.unusedVariables false

/-! ### Decimal rendering of naturals

The flattener synthesizes jump labels with Python format strings such as
`'{}false_{}'.format(label_prefix, branchind)`; the second hole renders the
branch index in decimal, which in Lean is `Nat.repr`.  Label-uniqueness
arguments need that this rendering is injective, proved here by relating
`Nat.toDigitsCore` to `Nat.digits`.
-/

/-- Decimal character list of a natural number, most significant digit first. -/
def natReprChars (n : Nat) : List Char :=
  if n = 0 then ['0'] else ((Nat.digits 10 n).map Nat.digitChar).reverse

lemma toDigitsCore_eq_natReprChars :
    ∀ (f n : Nat) (ds : List Char), n < f →
      Nat.toDigitsCore 10 f n ds = natReprChars n ++ ds := by
  intro f
  induction f with
  | zero => intro n ds h; omega
  | succ f ih =>
    intro n ds h
    rw [Nat.toDigitsCore]
    by_cases h10 : n / 10 = 0
    · have hn10 : n < 10 := by omega
      simp only [h10, if_true]
      rcases Nat.eq_zero_or_pos n with rfl | hpos
      · show Nat.digitChar (0 % 10) :: ds = natReprChars 0 ++ ds
        simp [natReprChars]
        decide
      · have hdig : Nat.digits 10 n = [n % 10] := by
          rw [Nat.digits_def' (by norm_num : 1 < 10) hpos, h10]
          simp
        have hne : n ≠ 0 := by omega
        simp [natReprChars, hne, hdig]
    · simp only [h10, if_false]
      have hlt : n / 10 < f := by
        have := Nat.div_lt_self (by omega : 0 < n) (by norm_num : 1 < 10)
        omega
      rw [ih (n / 10) _ hlt]
      have hpos : 0 < n := by
        rcases Nat.eq_zero_or_pos n with rfl | hp
        · simp at h10
        · exact hp
      have hdig : Nat.digits 10 n = n % 10 :: Nat.digits 10 (n / 10) :=
        Nat.digits_def' (by norm_num : 1 < 10) hpos
      have hne : n ≠ 0 := by omega
      simp [natReprChars, hdig, hne, h10]

lemma repr_eq_natReprChars (n : Nat) : Nat.repr n = (natReprChars n).asString := by
  rw [Nat.repr, Nat.toDigits, toDigitsCore_eq_natReprChars (n+1) n [] (Nat.lt_succ_self n)]
  simp

lemma digitChar_inj_lt (a b : Nat) (ha : a < 10) (hb : b < 10)
    (h : Nat.digitChar a = Nat.digitChar b) : a = b := by
  interval_cases a <;> interval_cases b <;> simp_all [Nat.digitChar]

lemma digits_map_digitChar_inj (l1 l2 : List Nat) (h1 : ∀ x ∈ l1, x < 10)
    (h2 : ∀ x ∈ l2, x < 10) (h : l1.map Nat.digitChar = l2.map Nat.digitChar) : l1 = l2 := by
  induction l1 generalizing l2 with
  | nil => cases l2 <;> simp_all
  | cons a t ih =>
    cases l2 with
    | nil => simp_all
    | cons b t2 =>
      simp only [List.map_cons, List.cons.injEq] at h
      have ha := digitChar_inj_lt a b (h1 a (by simp)) (h2 b (by simp)) h.1
      have := ih t2 (fun x hx => h1 x (by simp [hx])) (fun x hx => h2 x (by simp [hx])) h.2
      simp [ha, this]

lemma natReprChars_inj : Function.Injective natReprChars := by
  intro m n h
  unfold natReprChars at h
  by_cases hm : m = 0 <;> by_cases hn : n = 0
  · omega
  · exfalso
    rw [if_pos hm, if_neg hn] at h
    have hrev := congrArg List.reverse h
    simp only [List.reverse_reverse] at hrev
    have hd : Nat.digits 10 n = [0] := by
      have hsym := hrev.symm
      rcases hdn : Nat.digits 10 n with _ | ⟨d, rest⟩
      · rw [hdn] at hsym; simp at hsym
      · rw [hdn] at hsym
        cases rest with
        | nil =>
          simp at hsym
          have hdlt : d < 10 := Nat.digits_lt_base (by norm_num) (hdn ▸ List.mem_cons_self d [])
          have hd0 : d = 0 := digitChar_inj_lt d 0 hdlt (by norm_num) (by rw [hsym]; rfl)
          simp [hd0]
        | cons e rest2 =>
          exfalso
          have hlen := congrArg List.length hsym
          simp at hlen
    have hod := Nat.ofDigits_digits 10 n
    rw [hd] at hod
    simp [Nat.ofDigits] at hod
    omega
  · exfalso
    rw [if_neg hm, if_pos hn] at h
    have hrev := congrArg List.reverse h
    simp only [List.reverse_reverse] at hrev
    have hd : Nat.digits 10 m = [0] := by
      rcases hdm : Nat.digits 10 m with _ | ⟨d, rest⟩
      · rw [hdm] at hrev; simp at hrev
      · rw [hdm] at hrev
        cases rest with
        | nil =>
          simp at hrev
          have hdlt : d < 10 := Nat.digits_lt_base (by norm_num) (hdm ▸ List.mem_cons_self d [])
          have hd0 : d = 0 := digitChar_inj_lt d 0 hdlt (by norm_num) (by rw [hrev]; rfl)
          simp [hd0]
        | cons e rest2 =>
          exfalso
          have hlen := congrArg List.length hrev
          simp at hlen
    have hod := Nat.ofDigits_digits 10 m
    rw [hd] at hod
    simp [Nat.ofDigits] at hod
    omega
  · rw [if_neg hm, if_neg hn] at h
    have hrev := congrArg List.reverse h
    simp only [List.reverse_reverse] at hrev
    have hdig := digits_map_digitChar_inj _ _
      (fun x hx => Nat.digits_lt_base (by norm_num) hx)
      (fun x hx => Nat.digits_lt_base (by norm_num) hx) hrev
    have h1 := Nat.ofDigits_digits 10 m
    have h2 := Nat.ofDigits_digits 10 n
    rw [← h1, ← h2, hdig]

lemma natRepr_inj : Function.Injective Nat.repr := by
  intro m n h
  rw [repr_eq_natReprChars, repr_eq_natReprChars] at h
  have hdata : natReprChars m = natReprChars n := by
    have := congrArg String.data h
    simpa [List.asString] using this
  exact natReprChars_inj hdata

lemma string_append_cancel_left {p s1 s2 : String} (h : p ++ s1 = p ++ s2) : s1 = s2 := by
  have hd := congrArg String.data h
  simp only [String.data_append] at hd
  exact String.ext (List.append_cancel_left hd)

lemma string_append_cancel_right {s1 s2 c : String} (h : s1 ++ c = s2 ++ c) : s1 = s2 := by
  have hd := congrArg String.data h
  simp only [String.data_append] at hd
  exact String.ext (List.append_cancel_right hd)

/-! ### Control-flow flattening (`FlattenProgram._flatten_control_flow`)

Input programs are ordered statement lists; `branch_fproc`/`branch_var`
statements carry `true`/`false` sub-sequences and `loop` statements carry a
`body` sub-sequence.  The flattener recursively replaces the composites by
conditional-jump sequences.  The `branchind` counter starts at 0 in every
invocation and increments per composite statement; the accumulated label
prefix gains a `true_`/`false_`/`loop_body_` tag per nesting level.
-/

/-- A condition operand: a register/variable name or an immediate value
(`cond_lhs` may be either in the source). -/
inductive Operand where
  | ival (i : Int)
  | var (v : String)
deriving DecidableEq, Repr

/-- Statements as they occur in flattener input and output: the composites
(`branch_fproc`, `branch_var`, `loop`) plus the flat jump/label/barrier
statements the flattener emits, plus a generic `simple` statement for every
other instruction kind (gates, pulses, declarations, ...), which the
flattener passes through unchanged (dropping the dead `alu_op` name, as the
source does). -/
inductive Stmt where
  | simple (name : String)
  | jumpLabelS (label : String) (scope : List String)
  | jumpIS (jumpLabel : String) (scope : List String)
  | jumpFprocS (aluCond : String) (condLhs : Operand) (funcId : Nat)
      (scope : List String) (jumpLabel : String) (jumpType : Option String)
  | jumpCondS (aluCond : String) (condLhs : Operand) (condRhs : String)
      (scope : List String) (jumpLabel : String) (jumpType : Option String)
  | barrierS (qubit : List String)
  | loopEndS (loopLabel : String) (scope : List String)
  | branchFproc (aluCond : String) (condLhs : Operand) (funcId : Nat)
      (scope : List String) (tr fls : List Stmt)
  | branchVar (aluCond : String) (condLhs : Operand) (condRhs : String)
      (scope : List String) (tr fls : List Stmt)
  | loopStmt (aluCond : String) (condLhs : Operand) (condRhs : String)
      (scope : List String) (body : List Stmt)

/-- Label `'{}false_{}'.format(label_prefix, branchind)`. -/
def mkFalseL (pre : String) (i : Nat) : String := pre ++ "false_" ++ Nat.repr i

/-- Label `'{}true_{}'.format(label_prefix, branchind)`. -/
def mkTrueL (pre : String) (i : Nat) : String := pre ++ "true_" ++ Nat.repr i

/-- Label `'{}end_{}'.format(label_prefix, branchind)`. -/
def mkEndL (pre : String) (i : Nat) : String := pre ++ "end_" ++ Nat.repr i

/-- Label `'{}loop_{}_loopctrl'.format(label_prefix, branchind)`. -/
def mkLoopL (pre : String) (i : Nat) : String :=
  pre ++ "loop_" ++ Nat.repr i ++ "_loopctrl"

/-- The body of `_flatten_control_flow`, with the `branchind` counter made
explicit (it starts at 0 on entry and increments per composite). -/
def flattenAux : List Stmt → String → Nat → List Stmt
  | [], _, _ => []
  | .branchFproc ac cl fid sc tr fls :: rest, pre, k =>
      let fTrue := flattenAux tr ("true_" ++ pre) 0
      let fFalse := flattenAux fls ("false_" ++ pre) 0
      let jmp := Stmt.jumpFprocS ac cl fid sc
          (if fTrue.length > 0 then mkTrueL pre k else mkEndL pre k) none
      jmp :: ((Stmt.jumpLabelS (mkFalseL pre k) sc :: fFalse
            ++ [Stmt.jumpIS (mkEndL pre k) sc])
        ++ (if fTrue.length > 0 then Stmt.jumpLabelS (mkTrueL pre k) sc :: fTrue else fTrue)
        ++ [Stmt.jumpLabelS (mkEndL pre k) sc]
        ++ flattenAux rest pre (k + 1))
  | .branchVar ac cl cr sc tr fls :: rest, pre, k =>
      let fTrue := flattenAux tr ("true_" ++ pre) 0
      let fFalse := flattenAux fls ("false_" ++ pre) 0
      let jmp := Stmt.jumpCondS ac cl cr sc
          (if fTrue.length > 0 then mkTrueL pre k else mkEndL pre k) none
      jmp :: ((Stmt.jumpLabelS (mkFalseL pre k) sc :: fFalse
            ++ [Stmt.jumpIS (mkEndL pre k) sc])
        ++ (if fTrue.length > 0 then Stmt.jumpLabelS (mkTrueL pre k) sc :: fTrue else fTrue)
        ++ [Stmt.jumpLabelS (mkEndL pre k) sc]
        ++ flattenAux rest pre (k + 1))
  | .loopStmt ac cl cr sc body :: rest, pre, k =>
      let fBody := flattenAux body ("loop_body_" ++ pre) 0
      Stmt.jumpLabelS (mkLoopL pre k) sc :: Stmt.barrierS sc ::
        (fBody ++ [Stmt.loopEndS (mkLoopL pre k) sc,
          Stmt.jumpCondS ac cl cr sc (mkLoopL pre k) (some "loopctrl")]
        ++ flattenAux rest pre (k + 1))
  | .simple n :: rest, pre, k =>
      if n = "alu_op" then flattenAux rest pre k
      else .simple n :: flattenAux rest pre k
  | s :: rest, pre, k => s :: flattenAux rest pre k

/-- `FlattenProgram.run_pass` flattens the whole program with an empty label
prefix (and `branchind` starting at 0). -/
def flattenCF (program : List Stmt) : List Stmt := flattenAux program "" 0

/-- Is a statement one of the composite control-flow forms? -/
def Stmt.isCompositeB : Stmt → Bool
  | .branchFproc _ _ _ _ _ _ => true
  | .branchVar _ _ _ _ _ _ => true
  | .loopStmt _ _ _ _ _ => true
  | _ => false

/-- Is a statement a `jump_label` statement? -/
def Stmt.isJumpLabelB : Stmt → Bool
  | .jumpLabelS _ _ => true
  | _ => false

/-- The labels of the `jump_label` statements of a flat statement list, in
order.  On flattener output of a label-free input these are exactly the
synthesized labels, and they become the basic-block names. -/
def synthLabels : List Stmt → List String
  | [] => []
  | .jumpLabelS lbl _ :: rest => lbl :: synthLabels rest
  | .simple _ :: rest => synthLabels rest
  | .jumpIS _ _ :: rest => synthLabels rest
  | .jumpFprocS _ _ _ _ _ _ :: rest => synthLabels rest
  | .jumpCondS _ _ _ _ _ _ :: rest => synthLabels rest
  | .barrierS _ :: rest => synthLabels rest
  | .loopEndS _ _ :: rest => synthLabels rest
  | .branchFproc _ _ _ _ _ _ :: rest => synthLabels rest
  | .branchVar _ _ _ _ _ _ :: rest => synthLabels rest
  | .loopStmt _ _ _ _ _ :: rest => synthLabels rest

lemma synthLabels_append (l1 l2 : List Stmt) :
    synthLabels (l1 ++ l2) = synthLabels l1 ++ synthLabels l2 := by
  induction l1 with
  | nil => simp [synthLabels]
  | cons s rest ih => cases s <;> simp [synthLabels, ih]

/-! ### Distinctness of synthesized labels

Under a fixed accumulated prefix, labels synthesized for distinct branch
indices, or of distinct kinds, are distinct strings. -/

lemma mkFalseL_inj {pre : String} {i j : Nat} (h : mkFalseL pre i = mkFalseL pre j) : i = j :=
  natRepr_inj (string_append_cancel_left h)

lemma mkTrueL_inj {pre : String} {i j : Nat} (h : mkTrueL pre i = mkTrueL pre j) : i = j :=
  natRepr_inj (string_append_cancel_left h)

lemma mkEndL_inj {pre : String} {i j : Nat} (h : mkEndL pre i = mkEndL pre j) : i = j :=
  natRepr_inj (string_append_cancel_left h)

lemma mkLoopL_inj {pre : String} {i j : Nat} (h : mkLoopL pre i = mkLoopL pre j) : i = j :=
  natRepr_inj (string_append_cancel_left (string_append_cancel_right h))

lemma mkFalseL_ne_mkTrueL (pre : String) (i j : Nat) : mkFalseL pre i ≠ mkTrueL pre j := by
  intro h
  have hd := congrArg String.data h
  simp only [mkFalseL, mkTrueL, String.data_append, List.append_assoc] at hd
  have h2 := List.append_cancel_left hd
  simp at h2

lemma mkFalseL_ne_mkEndL (pre : String) (i j : Nat) : mkFalseL pre i ≠ mkEndL pre j := by
  intro h
  have hd := congrArg String.data h
  simp only [mkFalseL, mkEndL, String.data_append, List.append_assoc] at hd
  have h2 := List.append_cancel_left hd
  simp at h2

lemma mkTrueL_ne_mkEndL (pre : String) (i j : Nat) : mkTrueL pre i ≠ mkEndL pre j := by
  intro h
  have hd := congrArg String.data h
  simp only [mkTrueL, mkEndL, String.data_append, List.append_assoc] at hd
  have h2 := List.append_cancel_left hd
  simp at h2

lemma mkFalseL_ne_mkLoopL (pre : String) (i j : Nat) : mkFalseL pre i ≠ mkLoopL pre j := by
  intro h
  have hd := congrArg String.data h
  simp only [mkFalseL, mkLoopL, String.data_append, List.append_assoc] at hd
  have h2 := List.append_cancel_left hd
  simp at h2

lemma mkTrueL_ne_mkLoopL (pre : String) (i j : Nat) : mkTrueL pre i ≠ mkLoopL pre j := by
  intro h
  have hd := congrArg String.data h
  simp only [mkTrueL, mkLoopL, String.data_append, List.append_assoc] at hd
  have h2 := List.append_cancel_left hd
  simp at h2

lemma mkEndL_ne_mkLoopL (pre : String) (i j : Nat) : mkEndL pre i ≠ mkLoopL pre j := by
  intro h
  have hd := congrArg String.data h
  simp only [mkEndL, mkLoopL, String.data_append, List.append_assoc] at hd
  have h2 := List.append_cancel_left hd
  simp at h2

/-- Statement lists containing neither composites nor `jump_label`
statements (the sub-sequences of a nesting-depth-one program). -/
def noCompLabels : List Stmt → Bool
  | [] => true
  | s :: rest => !s.isCompositeB && !s.isJumpLabelB && noCompLabels rest

/-- A program of nesting depth at most one with no explicit `jump_label`
statements: every composite's sub-sequences are composite- and label-free. -/
def depth1Ok : List Stmt → Bool
  | [] => true
  | .branchFproc _ _ _ _ tr fls :: rest => noCompLabels tr && noCompLabels fls && depth1Ok rest
  | .branchVar _ _ _ _ tr fls :: rest => noCompLabels tr && noCompLabels fls && depth1Ok rest
  | .loopStmt _ _ _ _ body :: rest => noCompLabels body && depth1Ok rest
  | .jumpLabelS _ _ :: _ => false
  | _ :: rest => depth1Ok rest

lemma synthLabels_flattenAux_of_noCompLabels (l : List Stmt) (pre : String) (k : Nat)
    (h : noCompLabels l = true) : synthLabels (flattenAux l pre k) = [] := by
  induction l generalizing k with
  | nil => simp [flattenAux, synthLabels]
  | cons s rest ih =>
    rw [noCompLabels] at h
    simp only [Bool.and_eq_true] at h
    obtain ⟨⟨hs1, hs2⟩, hrest⟩ := h
    cases s with
    | simple n =>
        by_cases hn : n = "alu_op"
        · simp [flattenAux, hn, ih _ hrest]
        · simp [flattenAux, hn, synthLabels, ih _ hrest]
    | jumpLabelS lbl sc => simp [Stmt.isJumpLabelB] at hs2
    | jumpIS lbl sc => simp [flattenAux, synthLabels, ih _ hrest]
    | jumpFprocS a b c d e f => simp [flattenAux, synthLabels, ih _ hrest]
    | jumpCondS a b c d e f => simp [flattenAux, synthLabels, ih _ hrest]
    | barrierS q => simp [flattenAux, synthLabels, ih _ hrest]
    | loopEndS a b => simp [flattenAux, synthLabels, ih _ hrest]
    | branchFproc a b c d tr fls => simp [Stmt.isCompositeB] at hs1
    | branchVar a b c d tr fls => simp [Stmt.isCompositeB] at hs1
    | loopStmt a b c d body => simp [Stmt.isCompositeB] at hs1

lemma synthLabels_branchF (a : String) (b : Operand) (c : Nat) (d : List String)
    (tr fls rest : List Stmt) (pre : String) (k : Nat)
    (htr : noCompLabels tr = true) (hfls : noCompLabels fls = true) :
    synthLabels (flattenAux (.branchFproc a b c d tr fls :: rest) pre k)
      = mkFalseL pre k ::
        ((if 0 < (flattenAux tr ("true_" ++ pre) 0).length then [mkTrueL pre k] else [])
          ++ mkEndL pre k :: synthLabels (flattenAux rest pre (k + 1))) := by
  rw [flattenAux]
  by_cases hbt : 0 < (flattenAux tr ("true_" ++ pre) 0).length
  · simp [synthLabels, synthLabels_append, hbt,
      synthLabels_flattenAux_of_noCompLabels _ _ _ htr,
      synthLabels_flattenAux_of_noCompLabels _ _ _ hfls]
  · simp [synthLabels, synthLabels_append, hbt,
      synthLabels_flattenAux_of_noCompLabels _ _ _ htr,
      synthLabels_flattenAux_of_noCompLabels _ _ _ hfls]

lemma synthLabels_branchV (a : String) (b : Operand) (c : String) (d : List String)
    (tr fls rest : List Stmt) (pre : String) (k : Nat)
    (htr : noCompLabels tr = true) (hfls : noCompLabels fls = true) :
    synthLabels (flattenAux (.branchVar a b c d tr fls :: rest) pre k)
      = mkFalseL pre k ::
        ((if 0 < (flattenAux tr ("true_" ++ pre) 0).length then [mkTrueL pre k] else [])
          ++ mkEndL pre k :: synthLabels (flattenAux rest pre (k + 1))) := by
  rw [flattenAux]
  by_cases hbt : 0 < (flattenAux tr ("true_" ++ pre) 0).length
  · simp [synthLabels, synthLabels_append, hbt,
      synthLabels_flattenAux_of_noCompLabels _ _ _ htr,
      synthLabels_flattenAux_of_noCompLabels _ _ _ hfls]
  · simp [synthLabels, synthLabels_append, hbt,
      synthLabels_flattenAux_of_noCompLabels _ _ _ htr,
      synthLabels_flattenAux_of_noCompLabels _ _ _ hfls]

lemma synthLabels_loopS (a : String) (b : Operand) (c : String) (d : List String)
    (body rest : List Stmt) (pre : String) (k : Nat)
    (hbody : noCompLabels body = true) :
    synthLabels (flattenAux (.loopStmt a b c d body :: rest) pre k)
      = mkLoopL pre k :: synthLabels (flattenAux rest pre (k + 1)) := by
  rw [flattenAux]
  simp [synthLabels, synthLabels_append,
    synthLabels_flattenAux_of_noCompLabels _ _ _ hbody]

lemma synthLabels_flattenAux_shape (l : List Stmt) (k : Nat) (h : depth1Ok l = true) :
    ∀ lbl ∈ synthLabels (flattenAux l "" k), ∃ j, k ≤ j ∧
      (lbl = mkFalseL "" j ∨ lbl = mkTrueL "" j ∨ lbl = mkEndL "" j ∨ lbl = mkLoopL "" j) := by
  induction l generalizing k with
  | nil => simp [flattenAux, synthLabels]
  | cons s rest ih =>
    cases s with
    | branchFproc a b c d tr fls =>
        simp only [depth1Ok, Bool.and_eq_true] at h
        obtain ⟨⟨htr, hfls⟩, hrest⟩ := h
        rw [synthLabels_branchF a b c d tr fls rest "" k htr hfls]
        intro lbl hlbl
        simp only [List.mem_cons, List.mem_append] at hlbl
        rcases hlbl with rfl | hlbl
        · exact ⟨k, le_refl k, Or.inl rfl⟩
        rcases hlbl with hlbl | hlbl
        · by_cases hbt : 0 < (flattenAux tr ("true_" ++ "") 0).length
          · rw [if_pos hbt] at hlbl
            simp only [List.mem_singleton] at hlbl
            exact ⟨k, le_refl k, Or.inr (Or.inl hlbl)⟩
          · rw [if_neg hbt] at hlbl
            exact absurd hlbl (List.not_mem_nil lbl)
        · rcases hlbl with rfl | hlbl
          · exact ⟨k, le_refl k, Or.inr (Or.inr (Or.inl rfl))⟩
          · obtain ⟨j, hj, hc⟩ := ih (k + 1) hrest lbl hlbl
            exact ⟨j, by omega, hc⟩
    | branchVar a b c d tr fls =>
        simp only [depth1Ok, Bool.and_eq_true] at h
        obtain ⟨⟨htr, hfls⟩, hrest⟩ := h
        rw [synthLabels_branchV a b c d tr fls rest "" k htr hfls]
        intro lbl hlbl
        simp only [List.mem_cons, List.mem_append] at hlbl
        rcases hlbl with rfl | hlbl
        · exact ⟨k, le_refl k, Or.inl rfl⟩
        rcases hlbl with hlbl | hlbl
        · by_cases hbt : 0 < (flattenAux tr ("true_" ++ "") 0).length
          · rw [if_pos hbt] at hlbl
            simp only [List.mem_singleton] at hlbl
            exact ⟨k, le_refl k, Or.inr (Or.inl hlbl)⟩
          · rw [if_neg hbt] at hlbl
            exact absurd hlbl (List.not_mem_nil lbl)
        · rcases hlbl with rfl | hlbl
          · exact ⟨k, le_refl k, Or.inr (Or.inr (Or.inl rfl))⟩
          · obtain ⟨j, hj, hc⟩ := ih (k + 1) hrest lbl hlbl
            exact ⟨j, by omega, hc⟩
    | loopStmt a b c d body =>
        simp only [depth1Ok, Bool.and_eq_true] at h
        obtain ⟨hbody, hrest⟩ := h
        rw [synthLabels_loopS a b c d body rest "" k hbody]
        intro lbl hlbl
        simp only [List.mem_cons] at hlbl
        rcases hlbl with rfl | hlbl
        · exact ⟨k, le_refl k, Or.inr (Or.inr (Or.inr rfl))⟩
        · obtain ⟨j, hj, hc⟩ := ih (k + 1) hrest lbl hlbl
          exact ⟨j, by omega, hc⟩
    | jumpLabelS lbl sc => simp [depth1Ok] at h
    | simple n =>
        by_cases hn : n = "alu_op"
        · intro x hx
          have hx2 : x ∈ synthLabels (flattenAux rest "" k) := by
            simpa [flattenAux, hn, synthLabels] using hx
          exact ih k (by simpa [depth1Ok] using h) x hx2
        · intro x hx
          have hx2 : x ∈ synthLabels (flattenAux rest "" k) := by
            simpa [flattenAux, hn, synthLabels] using hx
          exact ih k (by simpa [depth1Ok] using h) x hx2
    | jumpIS lbl sc =>
        intro x hx
        have hx2 : x ∈ synthLabels (flattenAux rest "" k) := by
          simpa [flattenAux, synthLabels] using hx
        exact ih k (by simpa [depth1Ok] using h) x hx2
    | jumpFprocS a b c d e f =>
        intro x hx
        have hx2 : x ∈ synthLabels (flattenAux rest "" k) := by
          simpa [flattenAux, synthLabels] using hx
        exact ih k (by simpa [depth1Ok] using h) x hx2
    | jumpCondS a b c d e f =>
        intro x hx
        have hx2 : x ∈ synthLabels (flattenAux rest "" k) := by
          simpa [flattenAux, synthLabels] using hx
        exact ih k (by simpa [depth1Ok] using h) x hx2
    | barrierS q =>
        intro x hx
        have hx2 : x ∈ synthLabels (flattenAux rest "" k) := by
          simpa [flattenAux, synthLabels] using hx
        exact ih k (by simpa [depth1Ok] using h) x hx2
    | loopEndS a b =>
        intro x hx
        have hx2 : x ∈ synthLabels (flattenAux rest "" k) := by
          simpa [flattenAux, synthLabels] using hx
        exact ih k (by simpa [depth1Ok] using h) x hx2

lemma synthLabel_head_not_mem_tail {lbl : String} {k : Nat} {tail : List String}
    (hshape : ∀ x ∈ tail, ∃ j, k + 1 ≤ j ∧
      (x = mkFalseL "" j ∨ x = mkTrueL "" j ∨ x = mkEndL "" j ∨ x = mkLoopL "" j))
    (hl : lbl = mkFalseL "" k ∨ lbl = mkTrueL "" k ∨ lbl = mkEndL "" k ∨ lbl = mkLoopL "" k) :
    lbl ∉ tail := by
  intro hmem
  obtain ⟨j, hj, hx⟩ := hshape lbl hmem
  rcases hl with rfl | rfl | rfl | rfl <;> rcases hx with h | h | h | h
  all_goals first
    | exact absurd (mkFalseL_inj h) (by omega)
    | exact absurd (mkTrueL_inj h) (by omega)
    | exact absurd (mkEndL_inj h) (by omega)
    | exact absurd (mkLoopL_inj h) (by omega)
    | exact mkFalseL_ne_mkTrueL _ _ _ h
    | exact mkFalseL_ne_mkEndL _ _ _ h
    | exact mkFalseL_ne_mkLoopL _ _ _ h
    | exact mkTrueL_ne_mkEndL _ _ _ h
    | exact mkTrueL_ne_mkLoopL _ _ _ h
    | exact mkEndL_ne_mkLoopL _ _ _ h
    | exact mkFalseL_ne_mkTrueL _ _ _ h.symm
    | exact mkFalseL_ne_mkEndL _ _ _ h.symm
    | exact mkFalseL_ne_mkLoopL _ _ _ h.symm
    | exact mkTrueL_ne_mkEndL _ _ _ h.symm
    | exact mkTrueL_ne_mkLoopL _ _ _ h.symm
    | exact mkEndL_ne_mkLoopL _ _ _ h.symm

lemma flatten_labels_nodup_aux (l : List Stmt) (k : Nat) (h : depth1Ok l = true) :
    (synthLabels (flattenAux l "" k)).Nodup := by
  induction l generalizing k with
  | nil => simp [flattenAux, synthLabels]
  | cons s rest ih =>
    cases s with
    | branchFproc a b c d tr fls =>
        simp only [depth1Ok, Bool.and_eq_true] at h
        obtain ⟨⟨htr, hfls⟩, hrest⟩ := h
        rw [synthLabels_branchF a b c d tr fls rest "" k htr hfls]
        have hshape := synthLabels_flattenAux_shape rest (k + 1) hrest
        by_cases hbt : 0 < (flattenAux tr ("true_" ++ "") 0).length
        · rw [if_pos hbt]
          simp only [List.cons_append, List.nil_append]
          refine List.Nodup.cons ?_ (List.Nodup.cons ?_ (List.Nodup.cons ?_ (ih (k + 1) hrest)))
          · intro hm
            rcases List.mem_cons.mp hm with hft | hm2
            · exact mkFalseL_ne_mkTrueL "" k k hft
            rcases List.mem_cons.mp hm2 with hfe | hm3
            · exact mkFalseL_ne_mkEndL "" k k hfe
            · exact synthLabel_head_not_mem_tail hshape (Or.inl rfl) hm3
          · intro hm
            rcases List.mem_cons.mp hm with hfe | hm2
            · exact mkTrueL_ne_mkEndL "" k k hfe
            · exact synthLabel_head_not_mem_tail hshape (Or.inr (Or.inl rfl)) hm2
          · exact synthLabel_head_not_mem_tail hshape (Or.inr (Or.inr (Or.inl rfl)))
        · rw [if_neg hbt]
          simp only [List.nil_append]
          refine List.Nodup.cons ?_ (List.Nodup.cons ?_ (ih (k + 1) hrest))
          · intro hm
            rcases List.mem_cons.mp hm with hfe | hm2
            · exact mkFalseL_ne_mkEndL "" k k hfe
            · exact synthLabel_head_not_mem_tail hshape (Or.inl rfl) hm2
          · exact synthLabel_head_not_mem_tail hshape (Or.inr (Or.inr (Or.inl rfl)))
    | branchVar a b c d tr fls =>
        simp only [depth1Ok, Bool.and_eq_true] at h
        obtain ⟨⟨htr, hfls⟩, hrest⟩ := h
        rw [synthLabels_branchV a b c d tr fls rest "" k htr hfls]
        have hshape := synthLabels_flattenAux_shape rest (k + 1) hrest
        by_cases hbt : 0 < (flattenAux tr ("true_" ++ "") 0).length
        · rw [if_pos hbt]
          simp only [List.cons_append, List.nil_append]
          refine List.Nodup.cons ?_ (List.Nodup.cons ?_ (List.Nodup.cons ?_ (ih (k + 1) hrest)))
          · intro hm
            rcases List.mem_cons.mp hm with hft | hm2
            · exact mkFalseL_ne_mkTrueL "" k k hft
            rcases List.mem_cons.mp hm2 with hfe | hm3
            · exact mkFalseL_ne_mkEndL "" k k hfe
            · exact synthLabel_head_not_mem_tail hshape (Or.inl rfl) hm3
          · intro hm
            rcases List.mem_cons.mp hm with hfe | hm2
            · exact mkTrueL_ne_mkEndL "" k k hfe
            · exact synthLabel_head_not_mem_tail hshape (Or.inr (Or.inl rfl)) hm2
          · exact synthLabel_head_not_mem_tail hshape (Or.inr (Or.inr (Or.inl rfl)))
        · rw [if_neg hbt]
          simp only [List.nil_append]
          refine List.Nodup.cons ?_ (List.Nodup.cons ?_ (ih (k + 1) hrest))
          · intro hm
            rcases List.mem_cons.mp hm with hfe | hm2
            · exact mkFalseL_ne_mkEndL "" k k hfe
            · exact synthLabel_head_not_mem_tail hshape (Or.inl rfl) hm2
          · exact synthLabel_head_not_mem_tail hshape (Or.inr (Or.inr (Or.inl rfl)))
    | loopStmt a b c d body =>
        simp only [depth1Ok, Bool.and_eq_true] at h
        obtain ⟨hbody, hrest⟩ := h
        rw [synthLabels_loopS a b c d body rest "" k hbody]
        have hshape := synthLabels_flattenAux_shape rest (k + 1) hrest
        refine List.Nodup.cons ?_ (ih (k + 1) hrest)
        exact synthLabel_head_not_mem_tail hshape (Or.inr (Or.inr (Or.inr rfl)))
    | jumpLabelS lbl sc => simp [depth1Ok] at h
    | simple n =>
        by_cases hn : n = "alu_op"
        · have : synthLabels (flattenAux (Stmt.simple n :: rest) "" k)
              = synthLabels (flattenAux rest "" k) := by
            simp [flattenAux, hn, synthLabels]
          rw [this]
          exact ih k (by simpa [depth1Ok] using h)
        · have : synthLabels (flattenAux (Stmt.simple n :: rest) "" k)
              = synthLabels (flattenAux rest "" k) := by
            simp [flattenAux, hn, synthLabels]
          rw [this]
          exact ih k (by simpa [depth1Ok] using h)
    | jumpIS lbl sc =>
        have : synthLabels (flattenAux (Stmt.jumpIS lbl sc :: rest) "" k)
            = synthLabels (flattenAux rest "" k) := by
          simp [flattenAux, synthLabels]
        rw [this]
        exact ih k (by simpa [depth1Ok] using h)
    | jumpFprocS a b c d e f =>
        have : synthLabels (flattenAux (Stmt.jumpFprocS a b c d e f :: rest) "" k)
            = synthLabels (flattenAux rest "" k) := by
          simp [flattenAux, synthLabels]
        rw [this]
        exact ih k (by simpa [depth1Ok] using h)
    | jumpCondS a b c d e f =>
        have : synthLabels (flattenAux (Stmt.jumpCondS a b c d e f :: rest) "" k)
            = synthLabels (flattenAux rest "" k) := by
          simp [flattenAux, synthLabels]
        rw [this]
        exact ih k (by simpa [depth1Ok] using h)
    | barrierS q =>
        have : synthLabels (flattenAux (Stmt.barrierS q :: rest) "" k)
            = synthLabels (flattenAux rest "" k) := by
          simp [flattenAux, synthLabels]
        rw [this]
        exact ih k (by simpa [depth1Ok] using h)
    | loopEndS a b =>
        have : synthLabels (flattenAux (Stmt.loopEndS a b :: rest) "" k)
            = synthLabels (flattenAux rest "" k) := by
          simp [flattenAux, synthLabels]
        rw [this]
        exact ih k (by simpa [depth1Ok] using h)

/-- Two sibling branches, each containing a nested branch in its true
sub-sequence.  The two nested branches are flattened under the identical
accumulated prefix `true_`, so their synthesized labels coincide. -/
def exDupProgram : List Stmt :=
  [ .branchVar "eq" (.ival 0) "x" ["Q0"] [.branchVar "eq" (.ival 0) "x" ["Q0"] [] []] [],
    .branchVar "eq" (.ival 0) "x" ["Q0"] [.branchVar "eq" (.ival 0) "x" ["Q0"] [] []] [] ]

/-- C3 (counterexample): label uniqueness fails on the code as claimed.  The
accumulated label prefix records only the `true_`/`false_`/`loop_body_` tag
of each nesting level, not the sibling branch index, so the sub-sequences of
two sibling composites are flattened under the same prefix and their nested
labels collide: flattening `exDupProgram` synthesizes the label
`true_false_0` (and `true_end_0`) twice, so two basic blocks later share a
name. -/
theorem flatten_labels_duplicate_counterexample :
    ¬ (synthLabels (flattenCF exDupProgram)).Nodup := by
  simp only [flattenCF, exDupProgram, flattenAux, synthLabels]
  norm_num [mkFalseL, mkTrueL, mkEndL, mkLoopL, synthLabels]

/-- C3 (amended): labels synthesized for distinct composites inside a single
flattening invocation are pairwise distinct, because the branch index and
the `true`/`false`/`end`/`loopctrl` kind are both rendered into the label;
consequently, for programs of branch/loop nesting depth at most one (no
composite statement inside another composite's sub-sequence) that contain no
explicit jump-label statements, every synthesized label is unique across the
whole flattened output, and no two basic blocks later share a name.  (For
deeper nesting, uniqueness can fail: see the counterexample.) -/
theorem flattenCF_labels_nodup_of_depth1 (prog : List Stmt)
    (h : depth1Ok prog = true) : (synthLabels (flattenCF prog)).Nodup :=
  flatten_labels_nodup_aux prog 0 h

/-- A concrete depth-one program with a branch and a loop. -/
def exDepth1Program : List Stmt :=
  [ .simple "X90",
    .branchVar "eq" (.ival 0) "x" ["Q0"] [.simple "X90"] [.simple "Y90"],
    .loopStmt "ge" (.ival 1) "n" ["Q0"] [.simple "X90"],
    .branchFproc "eq" (.ival 0) 3 ["Q0"] [] [.simple "read"] ]

theorem flattenCF_labels_nodup_of_depth1_witness :
    depth1Ok exDepth1Program = true ∧ (synthLabels (flattenCF exDepth1Program)).Nodup :=
  ⟨by decide, flattenCF_labels_nodup_of_depth1 exDepth1Program (by decide)⟩

lemma flattenAux_no_composites (l : List Stmt) (pre : String) (k : Nat) :
    (flattenAux l pre k).all (fun s => !s.isCompositeB) = true := by
  induction l, pre, k using flattenAux.induct with
  | case1 => simp [flattenAux]
  | _ =>
      simp_all [flattenAux, Stmt.isCompositeB, List.all_append]
      try (split <;> simp_all)

/-- C4: flattening a `branch_fproc` or `branch_var` statement emits exactly:
a conditional jump (`jump_fproc` resp. `jump_cond`) carrying the branch's
original condition fields and targeting the true-label, or directly the
end-label when the flattened true sub-sequence is empty; then the flattened
false sub-sequence wrapped with a leading `JumpLabel(false-label)` and a
trailing `JumpI(end-label)`; then, only if non-empty, the flattened true
sub-sequence with a leading `JumpLabel(true-label)`; then a trailing
`JumpLabel(end-label)`; flattening then continues with the remaining
statements at the next branch index.  Moreover the flattened output contains
no branch or loop composite statements. -/
theorem flatten_branch_emission :
    (∀ (ac : String) (cl : Operand) (fid : Nat) (sc : List String)
        (tr fls rest : List Stmt) (pre : String) (k : Nat),
      flattenAux (.branchFproc ac cl fid sc tr fls :: rest) pre k =
        Stmt.jumpFprocS ac cl fid sc
            (if 0 < (flattenAux tr ("true_" ++ pre) 0).length
             then mkTrueL pre k else mkEndL pre k) none
          :: ((Stmt.jumpLabelS (mkFalseL pre k) sc :: flattenAux fls ("false_" ++ pre) 0
                ++ [Stmt.jumpIS (mkEndL pre k) sc])
            ++ (if 0 < (flattenAux tr ("true_" ++ pre) 0).length
                then Stmt.jumpLabelS (mkTrueL pre k) sc :: flattenAux tr ("true_" ++ pre) 0
                else flattenAux tr ("true_" ++ pre) 0)
            ++ [Stmt.jumpLabelS (mkEndL pre k) sc]
            ++ flattenAux rest pre (k + 1)))
    ∧ (∀ (ac : String) (cl : Operand) (cr : String) (sc : List String)
        (tr fls rest : List Stmt) (pre : String) (k : Nat),
      flattenAux (.branchVar ac cl cr sc tr fls :: rest) pre k =
        Stmt.jumpCondS ac cl cr sc
            (if 0 < (flattenAux tr ("true_" ++ pre) 0).length
             then mkTrueL pre k else mkEndL pre k) none
          :: ((Stmt.jumpLabelS (mkFalseL pre k) sc :: flattenAux fls ("false_" ++ pre) 0
                ++ [Stmt.jumpIS (mkEndL pre k) sc])
            ++ (if 0 < (flattenAux tr ("true_" ++ pre) 0).length
                then Stmt.jumpLabelS (mkTrueL pre k) sc :: flattenAux tr ("true_" ++ pre) 0
                else flattenAux tr ("true_" ++ pre) 0)
            ++ [Stmt.jumpLabelS (mkEndL pre k) sc]
            ++ flattenAux rest pre (k + 1)))
    ∧ (∀ (l : List Stmt) (pre : String) (k : Nat),
        (flattenAux l pre k).all (fun s => !s.isCompositeB) = true) := by
  refine ⟨?_, ?_, flattenAux_no_composites⟩
  · intro ac cl fid sc tr fls rest pre k
    rw [flattenAux]
  · intro ac cl cr sc tr fls rest pre k
    rw [flattenAux]

/-! ### Scheduling (`Schedule` pass)

The scheduler walks blocks in topological order.  Within a block it keeps a
per-channel pulse cursor `cur_t` and a per-core `last_instr_end_t`; Python
dicts over channels/cores are embedded as total functions, and the channel
and core domains over which the code takes `max(dict.values())` are passed
explicitly.  Floating-point pulse widths and the FPGA clock period are
embedded as rationals. -/

/-- Timing configuration (`distproc.hwconfig.FPGAConfig`). -/
structure FPGAConfig where
  fpga_clk_period : ℚ
  alu_instr_clks : Nat
  jump_cond_clks : Nat
  jump_fproc_clks : Nat
  pulse_regwrite_clks : Nat
  pulse_load_clks : Nat

/-- Channel-to-core grouping (`CoreScoper.proc_groupings`): each destination
channel is controlled by exactly one core, named by the tuple of channels it
drives. -/
structure CoreScoperM where
  procGroupings : String → List String

/-- `CoreScoper.get_groups_bydest`: the set of cores controlling a set of
destination channels (a Python set, embedded as a deduplicated list). -/
def getGroupsBydest (cs : CoreScoperM) (dests : List String) : List (List String) :=
  (dests.map cs.procGroupings).dedup

/-- `Schedule._get_pulse_nclks`: seconds to FPGA clocks, rounding up. -/
def getPulseNclks (cfg : FPGAConfig) (lengthSecs : ℚ) : Nat :=
  Nat.ceil (lengthSecs / cfg.fpga_clk_period)

/-- `max` of a list of naturals (`max(d.values())` in Python; the code only
applies it to nonempty dicts, where the base case 0 is irrelevant). -/
def maxOverN (l : List Nat) : Nat := l.foldl max 0

/-- Block-level instructions as seen by the scheduler, after gate/frequency
resolution.  `Hold` and `Idle` live in the repository's IR instruction
module, which only the passes see; their fields `(nclks, ref_chans, scope)`
and `(end_time, scope)` are modelled from the spec (the `Hold`/`Idle`
mechanism of §4.7) and from their uses in the passes. -/
inductive SchedInstr where
  | pulse (dest : String) (twidth : ℚ) (startTime : Option Nat)
  | barrier (scope : List String)
  | delay (t : ℚ) (scope : List String)
  | aluOp (scope : List String)
  | setVarI (scope : List String)
  | jumpFproc (jumpLabel : String) (jumpType : Option String) (scope : List String)
  | readFproc (scope : List String)
  | aluFproc (scope : List String)
  | jumpI (jumpLabel : String) (scope : List String)
  | jumpCond (jumpLabel : String) (jumpType : Option String) (scope : List String)
  | loopEnd (loopLabel : String) (scope : List String)
  | hold (nclks : Nat) (refChans : List String) (scope : List String)
  | idle (endTime : Nat) (scope : List String)
  | other (name : String) (scope : List String)
deriving DecidableEq

/-- The two time bases maintained by `Schedule._schedule_block`: the
per-channel pulse cursor `cur_t` and the per-core `last_instr_end_t`. -/
structure SchedState where
  curT : String → Nat
  lastInstrEndT : List String → Nat

/-- Add a fixed cost to `last_instr_end_t` of every core in a group list. -/
def bumpGroups (st : SchedState) (groups : List (List String)) (c : Nat) : SchedState :=
  { st with lastInstrEndT := fun g => if g ∈ groups then st.lastInstrEndT g + c
                                      else st.lastInstrEndT g }

/-- `Schedule._schedule_block`: one forward pass over a block's instruction
list.  Pulses get start times; barriers and delays update cursors and are
deleted; untimed instructions advance their cores by fixed costs; holds are
resolved into idles (or elided when every core already meets the idle
timestamp).  Returns the rewritten instruction list and the final state. -/
def scheduleBlock (cfg : FPGAConfig) (cs : CoreScoperM) :
    List SchedInstr → SchedState → List SchedInstr × SchedState
  | [], st => ([], st)
  | .pulse dest twidth _ :: rest, st =>
      let grp := cs.procGroupings dest
      let startTime := max (st.lastInstrEndT grp) (st.curT dest)
      let st1 : SchedState :=
        { curT := Function.update st.curT dest (startTime + getPulseNclks cfg twidth),
          lastInstrEndT := Function.update st.lastInstrEndT grp
            (startTime + cfg.pulse_load_clks) }
      let r := scheduleBlock cfg cs rest st1
      (.pulse dest twidth (some startTime) :: r.1, r.2)
  | .barrier scope :: rest, st =>
      let maxCurT := maxOverN (scope.map st.curT)
      let maxLastT := maxOverN ((scope.map cs.procGroupings).map st.lastInstrEndT)
      let maxT := max maxCurT maxLastT
      let st1 : SchedState :=
        { st with curT := fun c => if c ∈ scope then maxT else st.curT c }
      scheduleBlock cfg cs rest st1
  | .delay t scope :: rest, st =>
      let st1 : SchedState :=
        { st with curT := fun c => if c ∈ scope then st.curT c + getPulseNclks cfg t
                                   else st.curT c }
      scheduleBlock cfg cs rest st1
  | .aluOp scope :: rest, st =>
      let r := scheduleBlock cfg cs rest
        (bumpGroups st (getGroupsBydest cs scope) cfg.alu_instr_clks)
      (.aluOp scope :: r.1, r.2)
  | .setVarI scope :: rest, st =>
      let r := scheduleBlock cfg cs rest
        (bumpGroups st (getGroupsBydest cs scope) cfg.alu_instr_clks)
      (.setVarI scope :: r.1, r.2)
  | .jumpFproc lbl jt scope :: rest, st =>
      let r := scheduleBlock cfg cs rest
        (bumpGroups st (getGroupsBydest cs scope) cfg.jump_fproc_clks)
      (.jumpFproc lbl jt scope :: r.1, r.2)
  | .readFproc scope :: rest, st =>
      let r := scheduleBlock cfg cs rest
        (bumpGroups st (getGroupsBydest cs scope) cfg.jump_fproc_clks)
      (.readFproc scope :: r.1, r.2)
  | .aluFproc scope :: rest, st =>
      let r := scheduleBlock cfg cs rest
        (bumpGroups st (getGroupsBydest cs scope) cfg.jump_fproc_clks)
      (.aluFproc scope :: r.1, r.2)
  | .jumpI lbl scope :: rest, st =>
      let r := scheduleBlock cfg cs rest
        (bumpGroups st (getGroupsBydest cs scope) cfg.jump_cond_clks)
      (.jumpI lbl scope :: r.1, r.2)
  | .jumpCond lbl jt scope :: rest, st =>
      let r := scheduleBlock cfg cs rest
        (bumpGroups st (getGroupsBydest cs scope) cfg.jump_cond_clks)
      (.jumpCond lbl jt scope :: r.1, r.2)
  | .loopEnd lbl scope :: rest, st =>
      let r := scheduleBlock cfg cs rest
        (bumpGroups st (getGroupsBydest cs scope) cfg.alu_instr_clks)
      (.loopEnd lbl scope :: r.1, r.2)
  | .hold nclks refChans scope :: rest, st =>
      let maxT := maxOverN (refChans.map st.curT)
      let idleEndT := maxT + nclks
      let sel := (getGroupsBydest cs scope).filter
        (fun g => decide (st.lastInstrEndT g < idleEndT))
      let idleScope := sel.flatten.dedup
      let st1 : SchedState :=
        { st with lastInstrEndT := fun g =>
            if g ∈ sel then idleEndT + cfg.pulse_load_clks else st.lastInstrEndT g }
      let r := scheduleBlock cfg cs rest st1
      if sel.length > 0 then (.idle idleEndT idleScope :: r.1, r.2) else r
  | .idle e scope :: rest, st =>
      let r := scheduleBlock cfg cs rest st
      (.idle e scope :: r.1, r.2)
  | .other n scope :: rest, st =>
      let r := scheduleBlock cfg cs rest st
      (.other n scope :: r.1, r.2)

lemma le_foldl_max (l : List Nat) (a : Nat) : a ≤ l.foldl max a := by
  induction l generalizing a with
  | nil => simp
  | cons x t ih => exact le_trans (le_max_left a x) (ih (max a x))

lemma mem_le_foldl_max (l : List Nat) (a x : Nat) (hx : x ∈ l) : x ≤ l.foldl max a := by
  induction l generalizing a with
  | nil => simp at hx
  | cons y t ih =>
      rcases List.mem_cons.mp hx with rfl | hx2
      · exact le_trans (le_max_right a x) (le_foldl_max t (max a x))
      · exact ih (max a y) hx2

lemma foldl_max_le (l : List Nat) (a b : Nat) (ha : a ≤ b) (h : ∀ x ∈ l, x ≤ b) :
    l.foldl max a ≤ b := by
  induction l generalizing a with
  | nil => simpa using ha
  | cons x t ih =>
      exact ih (max a x) (max_le ha (h x (by simp)))
        (fun y hy => h y (by simp [hy]))

lemma maxOverN_le_of_subset (l1 l2 : List String) (f : String → Nat)
    (h : ∀ d ∈ l1, d ∈ l2) : maxOverN (l1.map f) ≤ maxOverN (l2.map f) := by
  apply foldl_max_le
  · exact Nat.zero_le _
  · intro x hx
    obtain ⟨d, hd, rfl⟩ := List.mem_map.mp hx
    exact mem_le_foldl_max _ 0 _ (List.mem_map.mpr ⟨d, h d hd, rfl⟩)

/-- C1: within `Schedule._schedule_block`, a `Pulse` instruction is assigned
`start_time = max(core.last_instr_end_t, channel.cur_t)`; immediately
afterwards the destination channel's pulse cursor equals
`start_time + duration-in-clocks` and the issuing core's
last-instruction-end time equals `start_time + pulse_load_clks`, with all
other channels' cursors and other cores' last-instruction-end times
untouched; the remaining instructions are scheduled in that updated state.
Quantifying over the incoming state covers every pulse position of every
scheduled program. -/
theorem schedule_pulse_timing (cfg : FPGAConfig) (cs : CoreScoperM)
    (dest : String) (twidth : ℚ) (t0 : Option Nat) (rest : List SchedInstr)
    (st : SchedState) :
    ∃ startTime st1,
      scheduleBlock cfg cs (.pulse dest twidth t0 :: rest) st =
        (SchedInstr.pulse dest twidth (some startTime) :: (scheduleBlock cfg cs rest st1).1,
          (scheduleBlock cfg cs rest st1).2)
      ∧ startTime = max (st.lastInstrEndT (cs.procGroupings dest)) (st.curT dest)
      ∧ st1.curT dest = startTime + getPulseNclks cfg twidth
      ∧ st1.lastInstrEndT (cs.procGroupings dest) = startTime + cfg.pulse_load_clks
      ∧ (∀ c, c ≠ dest → st1.curT c = st.curT c)
      ∧ (∀ g, g ≠ cs.procGroupings dest → st1.lastInstrEndT g = st.lastInstrEndT g) := by
  refine ⟨max (st.lastInstrEndT (cs.procGroupings dest)) (st.curT dest),
    { curT := Function.update st.curT dest
        (max (st.lastInstrEndT (cs.procGroupings dest)) (st.curT dest) + getPulseNclks cfg twidth),
      lastInstrEndT := Function.update st.lastInstrEndT (cs.procGroupings dest)
        (max (st.lastInstrEndT (cs.procGroupings dest)) (st.curT dest) + cfg.pulse_load_clks) },
    rfl, rfl, ?_, ?_, ?_, ?_⟩
  · simp
  · simp
  · intro c hc
    simp [Function.update, hc]
  · intro g hg
    simp [Function.update, hg]

/-- A concrete grouping: every channel of a qubit belongs to that qubit's
core, as in the default `('{qubit}.qdrv', '{qubit}.rdrv', '{qubit}.rdlo')`
grouping with qubits `Q0` and `Q1`. -/
def csEx : CoreScoperM :=
  { procGroupings := fun d =>
      if d = "Q0.qdrv" ∨ d = "Q0.rdrv" ∨ d = "Q0.rdlo"
      then ["Q0.qdrv", "Q0.rdrv", "Q0.rdlo"]
      else ["Q1.qdrv", "Q1.rdrv", "Q1.rdlo"] }

/-- Default timing configuration values of `hwconfig.FPGAConfig`. -/
def cfgEx : FPGAConfig :=
  { fpga_clk_period := 1 / 500000000,
    alu_instr_clks := 5,
    jump_cond_clks := 5,
    jump_fproc_clks := 5,
    pulse_regwrite_clks := 3,
    pulse_load_clks := 3 }

/-- Scheduler state at program start: every cursor and core at 5 clocks. -/
def stEx : SchedState := { curT := fun _ => 5, lastInstrEndT := fun _ => 5 }

theorem schedule_pulse_timing_witness :
    (scheduleBlock cfgEx csEx [.pulse "Q0.qdrv" 0 none] stEx).1
      = [.pulse "Q0.qdrv" 0 (some 5)] := by
  obtain ⟨t, st1, heq, ht, _⟩ :=
    schedule_pulse_timing cfgEx csEx "Q0.qdrv" 0 none [] stEx
  rw [heq]
  have ht5 : t = 5 := by rw [ht]; rfl
  rw [ht5]
  rfl

/-! ### Block entry times and loop registration (`Schedule.run_pass`)

Per node, `cur_t_global` starts at `start_nclks` for every channel of the
whole program scope and is raised by each CFG predecessor's `block_end_t`
for the channels in that predecessor's scope; `last_instr_end_t` starts at
`start_nclks` for the cores of the block scope and is raised by
predecessors' recorded per-core times.  A loop-start block (name ending in
the `loopctrl` discriminator) registers a Loop whose `start_time` is
`max(cur_t_local.values())` — the maximum over the whole program scope. -/

/-- Scheduling metadata a predecessor block exposes: its scope, its
per-channel `block_end_t`, and its per-core `last_instr_end_t` together with
the cores it recorded. -/
structure BlockMeta where
  scope : List String
  blockEndT : String → Nat
  lastGroups : List (List String)
  lastInstrEndT : List String → Nat

/-- `Schedule._start_nclks` (hardcoded to 5). -/
def startNclks : Nat := 5

/-- Entry pulse cursor of a block: `start_nclks` raised by each
predecessor's `block_end_t` on the channels of that predecessor's scope. -/
def entryCurT (preds : List BlockMeta) : String → Nat :=
  fun dest => preds.foldl
    (fun acc pb => if dest ∈ pb.scope then max acc (pb.blockEndT dest) else acc)
    startNclks

/-- Entry per-core last-instruction-end time of a block. -/
def entryLastT (preds : List BlockMeta) : List String → Nat :=
  fun g => preds.foldl
    (fun acc pb => if g ∈ pb.lastGroups then max acc (pb.lastInstrEndT g) else acc)
    startNclks

/-- The `start_time` the code registers for a loop-start block:
`max(cur_t_local.values())`, where `cur_t_local` is keyed by the whole
program scope. -/
def registerLoopStartTime (programScope : List String) (preds : List BlockMeta) : Nat :=
  maxOverN (programScope.map (entryCurT preds))

/-- Modelled from the spec: claim C7's reading of the loop `start_time`, the
maximum block entry time taken over the channels in the loop block's own
scope (rather than the whole program scope). -/
def loopStartTimeSpec (blockScope : List String) (preds : List BlockMeta) : Nat :=
  maxOverN (blockScope.map (entryCurT preds))

/-- A predecessor whose scope covers both qubits and whose `block_end_t`
records a long pulse on `Q1.qdrv` (100 clocks) but nothing on `Q0.qdrv`. -/
def predMetaEx : BlockMeta :=
  { scope := ["Q0.qdrv", "Q1.qdrv"],
    blockEndT := fun d => if d = "Q1.qdrv" then 100 else 5,
    lastGroups := [["Q0.qdrv", "Q0.rdrv", "Q0.rdlo"], ["Q1.qdrv", "Q1.rdrv", "Q1.rdlo"]],
    lastInstrEndT := fun _ => 5 }

/-- C7 (counterexample): for a loop block scoped only to `Q0.qdrv`, in a
program whose scope also contains `Q1.qdrv` with entry time 100, the code
registers `start_time = 100` (the maximum over the whole program scope),
whereas the claim's maximum over the block's scope is 5. -/
theorem register_loop_start_time_counterexample :
    registerLoopStartTime ["Q0.qdrv", "Q1.qdrv"] [predMetaEx] = 100
    ∧ loopStartTimeSpec ["Q0.qdrv"] [predMetaEx] = 5
    ∧ registerLoopStartTime ["Q0.qdrv", "Q1.qdrv"] [predMetaEx]
        ≠ loopStartTimeSpec ["Q0.qdrv"] [predMetaEx] := by
  refine ⟨?_, ?_, ?_⟩ <;> decide

/-- C7 (amended): the registered Loop `start_time` equals the maximum block
entry time taken over ALL channels of the program scope (each channel's
entry time being the start constant raised by the predecessors' exit times),
not just the channels of the loop block's scope; the claimed block-scope
maximum is in general only a lower bound. -/
theorem register_loop_start_time_eq (programScope blockScope : List String)
    (preds : List BlockMeta) (hsub : ∀ d ∈ blockScope, d ∈ programScope) :
    registerLoopStartTime programScope preds
      = maxOverN (programScope.map (fun dest => preds.foldl
          (fun acc pb => if dest ∈ pb.scope then max acc (pb.blockEndT dest) else acc)
          startNclks))
    ∧ loopStartTimeSpec blockScope preds ≤ registerLoopStartTime programScope preds := by
  constructor
  · rfl
  · exact maxOverN_le_of_subset blockScope programScope (entryCurT preds) hsub

theorem register_loop_start_time_eq_witness :
    (∀ d ∈ ["Q0.qdrv"], d ∈ ["Q0.qdrv", "Q1.qdrv"])
    ∧ loopStartTimeSpec ["Q0.qdrv"] [predMetaEx]
        ≤ registerLoopStartTime ["Q0.qdrv", "Q1.qdrv"] [predMetaEx] :=
  ⟨by decide,
    (register_loop_start_time_eq ["Q0.qdrv", "Q1.qdrv"] ["Q0.qdrv"] [predMetaEx]
      (by decide)).2⟩

/-! ### Loop-closing blocks (`Schedule.run_pass` terminal case and
`BasicBlock.compile` lowering of `loop_end`) -/

/-- Symbolic per-core assembly operations (`{'op': ...}` records emitted by
`BasicBlock.compile` / consumed by the assembler). -/
inductive AsmOp where
  | phase_reset
  | done_stb
  | incQclk (in0 : Int)
  | pulseOp (dest : String) (startTime : Nat)
  | jumpLabelOp (destLabel : String)
deriving DecidableEq

/-- `BasicBlock.compile` lowers a `loop_end` instruction to
`{'op': 'inc_qclk', 'in0': -loop_dict[loop_label]['delta_t']}`. -/
def compileLoopEnd (loopDeltaT : Int) : AsmOp := .incQclk (-loopDeltaT)

/-- The maximum over all exit times of a scheduled block: per-core
last-instruction-end times (keyed by the cores of the block scope) and
per-channel cursors (keyed by the whole program scope), as in
`max(max(last_instr_end_t.values()), max(cur_t_local.values()))`. -/
def loopctrlExitMax (cfg : FPGAConfig) (cs : CoreScoperM)
    (programScope blockScope : List String) (instrs : List SchedInstr)
    (preds : List BlockMeta) : Nat :=
  let r := scheduleBlock cfg cs instrs ⟨entryCurT preds, entryLastT preds⟩
  max (maxOverN ((getGroupsBydest cs blockScope).map r.2.lastInstrEndT))
      (maxOverN (programScope.map r.2.curT))

/-- Result of scheduling a block that ends in the loop-control conditional
jump: the rewritten instructions, the reported exit times (all reset to the
loop's start time), and the registered Loop's `delta_t`. -/
structure LoopctrlResult where
  instrs : List SchedInstr
  blockEndT : String → Nat
  lastInstrEndT : List String → Nat
  deltaT : Int

/-- `Schedule.run_pass` on a block terminated by the loop-control jump:
schedule the block from its merged entry state, set the registered Loop's
`delta_t` to the maximum exit time minus the Loop's `start_time`, and reset
the block's reported exit times (per channel and per core) to `start_time`. -/
def scheduleLoopctrlBlock (cfg : FPGAConfig) (cs : CoreScoperM)
    (programScope blockScope : List String) (instrs : List SchedInstr)
    (preds : List BlockMeta) : LoopctrlResult :=
  let st0 : SchedState := ⟨entryCurT preds, entryLastT preds⟩
  let loopStart := registerLoopStartTime programScope preds
  let r := scheduleBlock cfg cs instrs st0
  { instrs := r.1
    blockEndT := fun _ => loopStart
    lastInstrEndT := fun _ => loopStart
    deltaT := (max (maxOverN ((getGroupsBydest cs blockScope).map r.2.lastInstrEndT))
                   (maxOverN (programScope.map r.2.curT)) : Int) - loopStart }

/-- C2: for a block terminated by the loop-control conditional jump, the
registered Loop's `delta_t` equals the maximum over all exit times (per-core
last-instruction-end times and per-channel cursors) minus the Loop's
`start_time`; the block's reported exit time for every scoped channel (and
core) is reset to `start_time`; and the lowered loop-closing instruction is
an `inc_qclk` carrying immediate value `-delta_t` — so a loop whose body
takes `T` cycles (maximum exit time = `start_time + T`) yields `delta_t = T`
exactly and immediate `-T`. -/
theorem schedule_loopctrl_delta (cfg : FPGAConfig) (cs : CoreScoperM)
    (programScope blockScope : List String) (instrs : List SchedInstr)
    (preds : List BlockMeta) (T : Nat)
    (hT : loopctrlExitMax cfg cs programScope blockScope instrs preds
        = registerLoopStartTime programScope preds + T) :
    (scheduleLoopctrlBlock cfg cs programScope blockScope instrs preds).deltaT
        = (loopctrlExitMax cfg cs programScope blockScope instrs preds : Int)
          - registerLoopStartTime programScope preds
    ∧ (scheduleLoopctrlBlock cfg cs programScope blockScope instrs preds).deltaT = T
    ∧ (∀ d ∈ blockScope,
        (scheduleLoopctrlBlock cfg cs programScope blockScope instrs preds).blockEndT d
          = registerLoopStartTime programScope preds)
    ∧ (∀ g, (scheduleLoopctrlBlock cfg cs programScope blockScope instrs preds).lastInstrEndT g
          = registerLoopStartTime programScope preds)
    ∧ compileLoopEnd (scheduleLoopctrlBlock cfg cs programScope blockScope instrs preds).deltaT
        = .incQclk (-(T : Int)) := by
  have hdelta : (scheduleLoopctrlBlock cfg cs programScope blockScope instrs preds).deltaT
      = (loopctrlExitMax cfg cs programScope blockScope instrs preds : Int)
        - registerLoopStartTime programScope preds := by
    simp only [scheduleLoopctrlBlock, loopctrlExitMax]
    rw [Nat.cast_max]
  have hdT : (scheduleLoopctrlBlock cfg cs programScope blockScope instrs preds).deltaT
      = (T : Int) := by
    rw [hdelta, hT]
    push_cast
    ring
  refine ⟨hdelta, hdT, fun d _ => rfl, fun g => rfl, ?_⟩
  rw [hdT]
  rfl

/-- A loop-control block holding just the loop-closing conditional jump. -/
def loopctrlInstrsEx : List SchedInstr :=
  [.jumpCond "loop_0_loopctrl" (some "loopctrl") ["Q0.qdrv", "Q0.rdrv", "Q0.rdlo"]]

theorem schedule_loopctrl_delta_witness :
    loopctrlExitMax cfgEx csEx ["Q0.qdrv", "Q0.rdrv", "Q0.rdlo"]
        ["Q0.qdrv", "Q0.rdrv", "Q0.rdlo"] loopctrlInstrsEx []
      = registerLoopStartTime ["Q0.qdrv", "Q0.rdrv", "Q0.rdlo"] [] + 5
    ∧ (scheduleLoopctrlBlock cfgEx csEx ["Q0.qdrv", "Q0.rdrv", "Q0.rdlo"]
        ["Q0.qdrv", "Q0.rdrv", "Q0.rdlo"] loopctrlInstrsEx []).deltaT = 5
    ∧ compileLoopEnd (scheduleLoopctrlBlock cfgEx csEx ["Q0.qdrv", "Q0.rdrv", "Q0.rdlo"]
        ["Q0.qdrv", "Q0.rdrv", "Q0.rdlo"] loopctrlInstrsEx []).deltaT
      = .incQclk (-5) := by
  have hT : loopctrlExitMax cfgEx csEx ["Q0.qdrv", "Q0.rdrv", "Q0.rdlo"]
      ["Q0.qdrv", "Q0.rdrv", "Q0.rdlo"] loopctrlInstrsEx []
      = registerLoopStartTime ["Q0.qdrv", "Q0.rdrv", "Q0.rdlo"] [] + 5 := by decide
  obtain ⟨h1, h2, h3, h4, h5⟩ :=
    schedule_loopctrl_delta cfgEx csEx ["Q0.qdrv", "Q0.rdrv", "Q0.rdlo"]
      ["Q0.qdrv", "Q0.rdrv", "Q0.rdlo"] loopctrlInstrsEx [] 5 hT
  exact ⟨hT, h2, h5⟩

/-! ### Schedule linting (`LintSchedule._lint_block`)

The lint pass re-walks an already-scheduled block, replaying the per-core
fixed instruction costs, and raises when a pulse's `start_time` (or an
idle's `end_time`) precedes the issuing core's running
last-instruction-end time.  It rewrites nothing.  For an `idle`, the source
iterates the cores of the instruction scope and raises at the first core
whose running time exceeds `end_time`; since each core is visited once and
an update to one core never changes another core's check, raising is
equivalent to the existence of such a core at entry, which is how the check
is embedded. -/

/-- Add a fixed cost to the running per-core time of every core of a scope. -/
def bumpLast (cs : CoreScoperM) (last : List String → Nat) (scope : List String)
    (c : Nat) : List String → Nat :=
  fun g => if g ∈ getGroupsBydest cs scope then last g + c else last g

/-- Every pulse of the block carries a resolved `start_time` (an
already-scheduled program; an unscheduled pulse would fail in Python with a
`None` comparison rather than the lint check). -/
def allScheduled : List SchedInstr → Bool
  | [] => true
  | .pulse _ _ none :: _ => false
  | _ :: rest => allScheduled rest

/-- Prepend the (unchanged) instruction to a lint result, or propagate the
raised error. -/
def lintCons (x : SchedInstr)
    (r : Except String (List SchedInstr × (List String → Nat))) :
    Except String (List SchedInstr × (List String → Nat)) :=
  match r with
  | .error e => .error e
  | .ok (out, l) => .ok (x :: out, l)

/-- `LintSchedule._lint_block`.  Returns the (unmodified) instruction list
and the final running per-core times, or the raised error. -/
def lintBlock (cfg : FPGAConfig) (cs : CoreScoperM) :
    List SchedInstr → (List String → Nat) →
      Except String (List SchedInstr × (List String → Nat))
  | [], last => .ok ([], last)
  | .pulse dest tw (some t) :: rest, last =>
      if t < last (cs.procGroupings dest) then .error "start time too early"
      else lintCons (.pulse dest tw (some t)) (lintBlock cfg cs rest
        (Function.update last (cs.procGroupings dest) (t + cfg.pulse_load_clks)))
  | .pulse _ _ none :: _, _ => .error "unscheduled pulse"
  | .idle e sc :: rest, last =>
      if (getGroupsBydest cs sc).any (fun g => decide (e < last g)) then
        .error "end time too early"
      else lintCons (.idle e sc) (lintBlock cfg cs rest
        (fun g => if g ∈ getGroupsBydest cs sc then e + cfg.pulse_load_clks else last g))
  | .aluOp sc :: rest, last =>
      lintCons (.aluOp sc) (lintBlock cfg cs rest (bumpLast cs last sc cfg.alu_instr_clks))
  | .setVarI sc :: rest, last =>
      lintCons (.setVarI sc) (lintBlock cfg cs rest (bumpLast cs last sc cfg.alu_instr_clks))
  | .jumpFproc lbl jt sc :: rest, last =>
      lintCons (.jumpFproc lbl jt sc)
        (lintBlock cfg cs rest (bumpLast cs last sc cfg.jump_fproc_clks))
  | .readFproc sc :: rest, last =>
      lintCons (.readFproc sc)
        (lintBlock cfg cs rest (bumpLast cs last sc cfg.jump_fproc_clks))
  | .aluFproc sc :: rest, last =>
      lintCons (.aluFproc sc)
        (lintBlock cfg cs rest (bumpLast cs last sc cfg.jump_fproc_clks))
  | .jumpI lbl sc :: rest, last =>
      lintCons (.jumpI lbl sc)
        (lintBlock cfg cs rest (bumpLast cs last sc cfg.jump_cond_clks))
  | .jumpCond lbl jt sc :: rest, last =>
      lintCons (.jumpCond lbl jt sc)
        (lintBlock cfg cs rest (bumpLast cs last sc cfg.jump_cond_clks))
  | .loopEnd lbl sc :: rest, last =>
      lintCons (.loopEnd lbl sc)
        (lintBlock cfg cs rest (bumpLast cs last sc cfg.alu_instr_clks))
  | .barrier sc :: rest, last =>
      lintCons (.barrier sc) (lintBlock cfg cs rest last)
  | .delay t sc :: rest, last =>
      lintCons (.delay t sc) (lintBlock cfg cs rest last)
  | .hold n rc sc :: rest, last =>
      lintCons (.hold n rc sc) (lintBlock cfg cs rest last)
  | .other n sc :: rest, last =>
      lintCons (.other n sc) (lintBlock cfg cs rest last)

lemma lintCons_error_iff (x : SchedInstr)
    (r : Except String (List SchedInstr × (List String → Nat))) :
    (∃ e, lintCons x r = .error e) ↔ (∃ e, r = .error e) := by
  cases r with
  | error e => simp [lintCons]
  | ok p => obtain ⟨a, b⟩ := p; simp [lintCons]

lemma lintCons_ok_iff (x : SchedInstr)
    (r : Except String (List SchedInstr × (List String → Nat)))
    (out : List SchedInstr) (l : List String → Nat) :
    lintCons x r = .ok (out, l) ↔ ∃ out2, r = .ok (out2, l) ∧ out = x :: out2 := by
  cases r with
  | error e => simp [lintCons]
  | ok p =>
      obtain ⟨a, b⟩ := p
      simp only [lintCons, Except.ok.injEq, Prod.mk.injEq]
      constructor
      · rintro ⟨h1, h2⟩; subst h1; subst h2; exact ⟨a, ⟨rfl, rfl⟩, rfl⟩
      · rintro ⟨out2, ⟨h1, h2⟩, h3⟩; subst h1; subst h2; subst h3; exact ⟨rfl, rfl⟩

/-- The per-core running-time update one instruction causes during linting
(the non-raising part of each `_lint_block` arm). -/
def replayStep (cfg : FPGAConfig) (cs : CoreScoperM) (i : SchedInstr)
    (last : List String → Nat) : List String → Nat :=
  match i with
  | .pulse dest _ (some t) =>
      Function.update last (cs.procGroupings dest) (t + cfg.pulse_load_clks)
  | .pulse _ _ none => last
  | .idle e sc =>
      fun g => if g ∈ getGroupsBydest cs sc then e + cfg.pulse_load_clks else last g
  | .aluOp sc => bumpLast cs last sc cfg.alu_instr_clks
  | .setVarI sc => bumpLast cs last sc cfg.alu_instr_clks
  | .jumpFproc _ _ sc => bumpLast cs last sc cfg.jump_fproc_clks
  | .readFproc sc => bumpLast cs last sc cfg.jump_fproc_clks
  | .aluFproc sc => bumpLast cs last sc cfg.jump_fproc_clks
  | .jumpI _ sc => bumpLast cs last sc cfg.jump_cond_clks
  | .jumpCond _ _ sc => bumpLast cs last sc cfg.jump_cond_clks
  | .loopEnd _ sc => bumpLast cs last sc cfg.alu_instr_clks
  | _ => last

/-- Does this instruction violate the timing check against the running
per-core times? -/
def stepViolates (cfg : FPGAConfig) (cs : CoreScoperM) (i : SchedInstr)
    (last : List String → Nat) : Bool :=
  match i with
  | .pulse dest _ (some t) => decide (t < last (cs.procGroupings dest))
  | .idle e sc => (getGroupsBydest cs sc).any (fun g => decide (e < last g))
  | _ => false

/-- Replay the running per-core times over a list of instructions. -/
def replayTo (cfg : FPGAConfig) (cs : CoreScoperM) (l : List SchedInstr)
    (last : List String → Nat) : List String → Nat :=
  l.foldl (fun acc i => replayStep cfg cs i acc) last

/-- Some instruction of the block violates the lint timing check, relative
to the replayed per-core running times at its position. -/
def LintViolation (cfg : FPGAConfig) (cs : CoreScoperM) (instrs : List SchedInstr)
    (last0 : List String → Nat) : Prop :=
  ∃ i, ∃ h : i < instrs.length,
    stepViolates cfg cs (instrs.get ⟨i, h⟩) (replayTo cfg cs (instrs.take i) last0) = true

lemma lintViolation_cons (cfg : FPGAConfig) (cs : CoreScoperM) (x : SchedInstr)
    (rest : List SchedInstr) (last0 : List String → Nat) :
    LintViolation cfg cs (x :: rest) last0 ↔
      stepViolates cfg cs x last0 = true ∨
        LintViolation cfg cs rest (replayStep cfg cs x last0) := by
  constructor
  · rintro ⟨i, hi, hv⟩
    cases i with
    | zero => exact Or.inl (by simpa [replayTo] using hv)
    | succ i2 =>
        refine Or.inr ⟨i2, by simpa using hi, ?_⟩
        simpa [replayTo] using hv
  · rintro (hv | ⟨i, hi, hv⟩)
    · exact ⟨0, by simp, by simpa [replayTo] using hv⟩
    · exact ⟨i + 1, by simpa using hi, by simpa [replayTo] using hv⟩

lemma lint_char_step (cfg : FPGAConfig) (cs : CoreScoperM) (x : SchedInstr)
    (rest : List SchedInstr) (last0 : List String → Nat)
    (hnv : stepViolates cfg cs x last0 = false)
    (hlint : lintBlock cfg cs (x :: rest) last0
      = lintCons x (lintBlock cfg cs rest (replayStep cfg cs x last0)))
    (ihIff : (∃ e, lintBlock cfg cs rest (replayStep cfg cs x last0) = .error e)
      ↔ LintViolation cfg cs rest (replayStep cfg cs x last0))
    (ihOk : ∀ out l, lintBlock cfg cs rest (replayStep cfg cs x last0) = .ok (out, l) →
      out = rest ∧ l = replayTo cfg cs rest (replayStep cfg cs x last0)) :
    ((∃ e, lintBlock cfg cs (x :: rest) last0 = .error e)
      ↔ LintViolation cfg cs (x :: rest) last0)
    ∧ (∀ out l, lintBlock cfg cs (x :: rest) last0 = .ok (out, l) →
        out = x :: rest ∧ l = replayTo cfg cs (x :: rest) last0) := by
  constructor
  · rw [hlint, lintCons_error_iff, ihIff, lintViolation_cons, hnv]
    simp
  · intro out l hok
    rw [hlint, lintCons_ok_iff] at hok
    obtain ⟨out2, hr, rfl⟩ := hok
    obtain ⟨rfl, hl⟩ := ihOk out2 l hr
    refine ⟨rfl, ?_⟩
    rw [hl]
    simp [replayTo]

lemma lintBlock_char (cfg : FPGAConfig) (cs : CoreScoperM) :
    ∀ (instrs : List SchedInstr) (last0 : List String → Nat),
    allScheduled instrs = true →
    ((∃ e, lintBlock cfg cs instrs last0 = .error e)
      ↔ LintViolation cfg cs instrs last0)
    ∧ (∀ out last1, lintBlock cfg cs instrs last0 = .ok (out, last1) →
        out = instrs ∧ last1 = replayTo cfg cs instrs last0) := by
  intro instrs
  induction instrs with
  | nil =>
      intro last0 _
      constructor
      · simp [lintBlock, LintViolation]
      · intro out l hok
        simp only [lintBlock, Except.ok.injEq, Prod.mk.injEq] at hok
        exact ⟨hok.1.symm, hok.2.symm⟩
  | cons x rest ih =>
      intro last0 hs
      cases x with
      | pulse dest tw t0 =>
          cases t0 with
          | none => exact absurd hs (by simp [allScheduled])
          | some t =>
              have hs2 : allScheduled rest = true := by simpa [allScheduled] using hs
              by_cases hv : t < last0 (cs.procGroupings dest)
              · have hlint : lintBlock cfg cs (.pulse dest tw (some t) :: rest) last0
                    = .error "start time too early" := by
                  simp [lintBlock, hv]
                constructor
                · rw [hlint]
                  constructor
                  · intro _
                    exact (lintViolation_cons cfg cs _ rest last0).mpr
                      (Or.inl (by simp [stepViolates, hv]))
                  · intro _
                    exact ⟨"start time too early", rfl⟩
                · intro out l hok
                  rw [hlint] at hok
                  exact absurd hok (by simp)
              · have hnv : stepViolates cfg cs (.pulse dest tw (some t)) last0 = false := by
                  simp [stepViolates, hv]
                have hlint : lintBlock cfg cs (.pulse dest tw (some t) :: rest) last0
                    = lintCons (.pulse dest tw (some t))
                        (lintBlock cfg cs rest
                          (replayStep cfg cs (.pulse dest tw (some t)) last0)) := by
                  simp [lintBlock, hv, replayStep]
                exact lint_char_step cfg cs _ rest last0 hnv hlint (ih _ hs2).1 (ih _ hs2).2
      | idle e sc =>
          have hs2 : allScheduled rest = true := by simpa [allScheduled] using hs
          by_cases hv : (getGroupsBydest cs sc).any (fun g => decide (e < last0 g)) = true
          · have hlint : lintBlock cfg cs (.idle e sc :: rest) last0
                = .error "end time too early" := by
              simp only [lintBlock, hv, if_true]
            constructor
            · rw [hlint]
              constructor
              · intro _
                exact (lintViolation_cons cfg cs _ rest last0).mpr
                  (Or.inl (by simpa [stepViolates] using hv))
              · intro _
                exact ⟨"end time too early", rfl⟩
            · intro out l hok
              rw [hlint] at hok
              exact absurd hok (by simp)
          · have hnv : stepViolates cfg cs (.idle e sc) last0 = false := by
              simpa [stepViolates] using hv
            have hlint : lintBlock cfg cs (.idle e sc :: rest) last0
                = lintCons (.idle e sc)
                    (lintBlock cfg cs rest (replayStep cfg cs (.idle e sc) last0)) := by
              simp only [lintBlock, hv, if_false, Bool.false_eq_true]
              rfl
            exact lint_char_step cfg cs _ rest last0 hnv hlint (ih _ hs2).1 (ih _ hs2).2
      | aluOp sc =>
          have hs2 : allScheduled rest = true := by simpa [allScheduled] using hs
          exact lint_char_step cfg cs _ rest last0 rfl rfl (ih _ hs2).1 (ih _ hs2).2
      | setVarI sc =>
          have hs2 : allScheduled rest = true := by simpa [allScheduled] using hs
          exact lint_char_step cfg cs _ rest last0 rfl rfl (ih _ hs2).1 (ih _ hs2).2
      | jumpFproc lbl jt sc =>
          have hs2 : allScheduled rest = true := by simpa [allScheduled] using hs
          exact lint_char_step cfg cs _ rest last0 rfl rfl (ih _ hs2).1 (ih _ hs2).2
      | readFproc sc =>
          have hs2 : allScheduled rest = true := by simpa [allScheduled] using hs
          exact lint_char_step cfg cs _ rest last0 rfl rfl (ih _ hs2).1 (ih _ hs2).2
      | aluFproc sc =>
          have hs2 : allScheduled rest = true := by simpa [allScheduled] using hs
          exact lint_char_step cfg cs _ rest last0 rfl rfl (ih _ hs2).1 (ih _ hs2).2
      | jumpI lbl sc =>
          have hs2 : allScheduled rest = true := by simpa [allScheduled] using hs
          exact lint_char_step cfg cs _ rest last0 rfl rfl (ih _ hs2).1 (ih _ hs2).2
      | jumpCond lbl jt sc =>
          have hs2 : allScheduled rest = true := by simpa [allScheduled] using hs
          exact lint_char_step cfg cs _ rest last0 rfl rfl (ih _ hs2).1 (ih _ hs2).2
      | loopEnd lbl sc =>
          have hs2 : allScheduled rest = true := by simpa [allScheduled] using hs
          exact lint_char_step cfg cs _ rest last0 rfl rfl (ih _ hs2).1 (ih _ hs2).2
      | barrier sc =>
          have hs2 : allScheduled rest = true := by simpa [allScheduled] using hs
          exact lint_char_step cfg cs _ rest last0 rfl rfl (ih _ hs2).1 (ih _ hs2).2
      | delay t sc =>
          have hs2 : allScheduled rest = true := by simpa [allScheduled] using hs
          exact lint_char_step cfg cs _ rest last0 rfl rfl (ih _ hs2).1 (ih _ hs2).2
      | hold n rc sc =>
          have hs2 : allScheduled rest = true := by simpa [allScheduled] using hs
          exact lint_char_step cfg cs _ rest last0 rfl rfl (ih _ hs2).1 (ih _ hs2).2
      | other n sc =>
          have hs2 : allScheduled rest = true := by simpa [allScheduled] using hs
          exact lint_char_step cfg cs _ rest last0 rfl rfl (ih _ hs2).1 (ih _ hs2).2

/-- C8: over an already-scheduled block, the lint pass raises an error if
and only if some `Pulse`'s `start_time` is earlier than its core's running
last-instruction-end time, or some `Idle`'s `end_time` is earlier than some
of its cores' running last-instruction-end times, where the running times
replay the per-core fixed instruction costs; and on success it returns the
instruction list unmodified (with the replayed final per-core times). -/
theorem lint_raises_iff (cfg : FPGAConfig) (cs : CoreScoperM)
    (instrs : List SchedInstr) (last0 : List String → Nat)
    (hsched : allScheduled instrs = true) :
    ((∃ e, lintBlock cfg cs instrs last0 = .error e)
      ↔ LintViolation cfg cs instrs last0)
    ∧ (∀ out last1, lintBlock cfg cs instrs last0 = .ok (out, last1) →
        out = instrs ∧ last1 = replayTo cfg cs instrs last0) :=
  lintBlock_char cfg cs instrs last0 hsched

/-- A block holding a single pulse scheduled too early (start 3, core busy
until 5). -/
def lintInstrsEx : List SchedInstr := [.pulse "Q0.qdrv" 0 (some 3)]

theorem lint_raises_iff_witness :
    allScheduled lintInstrsEx = true
    ∧ (∃ e, lintBlock cfgEx csEx lintInstrsEx (fun _ => 5) = .error e) := by
  refine ⟨by decide, ?_⟩
  have h := (lint_raises_iff cfgEx csEx lintInstrsEx (fun _ => 5) (by decide)).1
  exact h.mpr ⟨0, by decide, by decide⟩

/-! ### CFG edge generation (`GenerateCFG.run_pass`)

Walking blocks in source (`ind`) order, the pass tracks per channel the most
recently closed block (`lastblock`), adds a forward edge from each channel's
last block to the current block, adds the jump-target edge of a terminal
non-loop-control conditional jump or unconditional jump (clearing
`lastblock` on the scope of an unconditional jump), and excludes
loop-control jumps. -/

/-- A basic block as the CFG pass sees it: name, source-order index, scope,
and instructions. -/
structure CFGBlockM where
  name : String
  ind : Nat
  scope : List String
  instrs : List SchedInstr

/-- Classification of a block's terminal instruction
(`block['instructions'][-1]`). -/
inductive TermKind where
  | condJump (lbl : String) (loopctrl : Bool)
  | uncond (lbl : String)
  | fall

/-- The terminal instruction kind of a block. -/
def terminalOf (b : CFGBlockM) : TermKind :=
  match b.instrs.getLast? with
  | some (.jumpFproc lbl jt _) => .condJump lbl (jt = some "loopctrl")
  | some (.jumpCond lbl jt _) => .condJump lbl (jt = some "loopctrl")
  | some (.jumpI lbl _) => .uncond lbl
  | _ => .fall

/-- The jump-target labels for which the pass adds an edge (loop-control
jumps are excluded). -/
def jumpTargets (b : CFGBlockM) : List String :=
  match terminalOf b with
  | .condJump lbl lc => if lc then [] else [lbl]
  | .uncond lbl => [lbl]
  | .fall => []

/-- Overwrite the `lastblock` entry of every channel of a scope. -/
def setLast (lastb : String → Option String) (scope : List String)
    (v : Option String) : String → Option String :=
  fun d => if d ∈ scope then v else lastb d

/-- The edge list `GenerateCFG.run_pass` adds, walking the blocks in source
order with the `lastblock` map threaded through. -/
def genCFGAux : List CFGBlockM → (String → Option String) → List (String × String)
  | [], _ => []
  | b :: rest, lastb =>
      let fwd := b.scope.filterMap (fun d => (lastb d).map (fun nm => (nm, b.name)))
      match terminalOf b with
      | .condJump lbl lc =>
          (fwd ++ (if lc then [] else [(b.name, lbl)]))
            ++ genCFGAux rest (setLast lastb b.scope (some b.name))
      | .uncond lbl =>
          (fwd ++ [(b.name, lbl)]) ++ genCFGAux rest (setLast lastb b.scope none)
      | .fall => fwd ++ genCFGAux rest (setLast lastb b.scope (some b.name))

/-- The control-flow edges of a program (all `lastblock` entries initially
absent). -/
def generateCFG (blocks : List CFGBlockM) : List (String × String) :=
  genCFGAux blocks (fun _ => none)

lemma genCFGAux_forward (indOf : String → Nat) :
    ∀ (blocks : List CFGBlockM) (lastb : String → Option String),
    blocks.Pairwise (fun b1 b2 => b1.ind < b2.ind) →
    (∀ b ∈ blocks, indOf b.name = b.ind) →
    (∀ b ∈ blocks, ∀ lbl ∈ jumpTargets b, b.ind < indOf lbl) →
    (∀ d nm, lastb d = some nm → ∀ b ∈ blocks, indOf nm < b.ind) →
    ∀ e ∈ genCFGAux blocks lastb, indOf e.1 < indOf e.2 := by
  intro blocks
  induction blocks with
  | nil => simp [genCFGAux]
  | cons b rest ih =>
      intro lastb hpw hind hjump hlast e he
      have hpw2 : rest.Pairwise (fun b1 b2 => b1.ind < b2.ind) := hpw.of_cons
      have hblt : ∀ b2 ∈ rest, b.ind < b2.ind :=
        fun b2 hb2 => List.rel_of_pairwise_cons hpw hb2
      have hindb : indOf b.name = b.ind := hind b (by simp)
      have hind2 : ∀ b2 ∈ rest, indOf b2.name = b2.ind :=
        fun b2 hb2 => hind b2 (by simp [hb2])
      have hjump2 : ∀ b2 ∈ rest, ∀ lbl ∈ jumpTargets b2, b2.ind < indOf lbl :=
        fun b2 hb2 => hjump b2 (by simp [hb2])
      have hfwdmem : ∀ p ∈ b.scope.filterMap
          (fun d => (lastb d).map (fun nm => (nm, b.name))), indOf p.1 < indOf p.2 := by
        intro p hp
        obtain ⟨d, hd, hpd⟩ := List.mem_filterMap.mp hp
        cases hld : lastb d with
        | none => rw [hld] at hpd; simp at hpd
        | some nm =>
            rw [hld] at hpd
            simp only [Option.map_some', Option.some.injEq] at hpd
            subst hpd
            simpa [hindb] using hlast d nm hld b (by simp)
      have hlastKeep : ∀ (v : Option String),
          (v = none ∨ v = some b.name) →
          ∀ d nm, setLast lastb b.scope v d = some nm → ∀ b2 ∈ rest, indOf nm < b2.ind := by
        intro v hv d nm hset b2 hb2
        by_cases hdm : d ∈ b.scope
        · rw [setLast, if_pos hdm] at hset
          rcases hv with rfl | rfl
          · simp at hset
          · simp only [Option.some.injEq] at hset
            subst hset
            rw [hindb]
            exact hblt b2 hb2
        · rw [setLast, if_neg hdm] at hset
          exact hlast d nm hset b2 (by simp [hb2])
      cases hterm : terminalOf b with
      | condJump lbl lc =>
        rw [genCFGAux, hterm] at he
        simp only [List.mem_append] at he
        rcases he with (he | he) | he
        · exact hfwdmem e he
        · by_cases hlc : lc = true
          · rw [hlc, if_pos rfl] at he
            simp at he
          · rw [Bool.not_eq_true] at hlc
            rw [hlc] at he
            simp only [Bool.false_eq_true, if_false, List.mem_singleton] at he
            subst he
            have : lbl ∈ jumpTargets b := by
              rw [jumpTargets, hterm, hlc]
              simp
            simpa [hindb] using hjump b (by simp) lbl this
        · exact ih (setLast lastb b.scope (some b.name)) hpw2 hind2 hjump2
            (hlastKeep (some b.name) (Or.inr rfl)) e he
      | uncond lbl =>
        rw [genCFGAux, hterm] at he
        simp only [List.mem_append] at he
        rcases he with (he | he) | he
        · exact hfwdmem e he
        · simp only [List.mem_singleton] at he
          subst he
          have : lbl ∈ jumpTargets b := by
            rw [jumpTargets, hterm]
            simp
          simpa [hindb] using hjump b (by simp) lbl this
        · exact ih (setLast lastb b.scope none) hpw2 hind2 hjump2
            (hlastKeep none (Or.inl rfl)) e he
      | fall =>
        rw [genCFGAux, hterm] at he
        simp only [List.mem_append] at he
        rcases he with he | he
        · exact hfwdmem e he
        · exact ih (setLast lastb b.scope (some b.name)) hpw2 hind2 hjump2
            (hlastKeep (some b.name) (Or.inr rfl)) e he

/-- C5: for every block list in source order (as produced by the
basic-block builder: strictly increasing `ind`, block names carrying their
own `ind`, and every non-loop-control jump targeting a later block, which
holds for flattened programs since synthesized jump labels occur after their
jumps), the edge list produced by the CFG generator only connects a block to
a strictly later block; hence the graph is acyclic (no nonempty path returns
to its origin) and the source order itself is a topological sort. -/
theorem generateCFG_acyclic (blocks : List CFGBlockM) (indOf : String → Nat)
    (hord : blocks.Pairwise (fun b1 b2 => b1.ind < b2.ind))
    (hind : ∀ b ∈ blocks, indOf b.name = b.ind)
    (hjump : ∀ b ∈ blocks, ∀ lbl ∈ jumpTargets b, b.ind < indOf lbl) :
    (∀ e ∈ generateCFG blocks, indOf e.1 < indOf e.2)
    ∧ (∀ x, ¬ Relation.TransGen (fun a b2 => (a, b2) ∈ generateCFG blocks) x x)
    ∧ (∃ f : String → Nat, ∀ e ∈ generateCFG blocks, f e.1 < f e.2) := by
  have hfwd := genCFGAux_forward indOf blocks (fun _ => none) hord hind hjump
    (by intro d nm h; simp at h)
  refine ⟨hfwd, ?_, ⟨indOf, hfwd⟩⟩
  intro x hx
  have hmono : ∀ a b2, Relation.TransGen (fun a b2 => (a, b2) ∈ generateCFG blocks) a b2 →
      indOf a < indOf b2 := by
    intro a b2 h
    induction h with
    | single h1 => exact hfwd _ h1
    | tail h1 h2 ih2 => exact lt_trans ih2 (hfwd _ h2)
  exact lt_irrefl _ (hmono x x hx)

/-- Two blocks: a branch block jumping forward to its true-label block. -/
def cfgBlocksEx : List CFGBlockM :=
  [ { name := "block_0", ind := 0, scope := ["Q0.qdrv"],
      instrs := [.jumpFproc "true_0" none ["Q0.qdrv"]] },
    { name := "true_0", ind := 1, scope := ["Q0.qdrv"],
      instrs := [.other "x90" ["Q0.qdrv"]] } ]

/-- Name-to-index map for `cfgBlocksEx`. -/
def indOfEx : String → Nat := fun nm => if nm = "true_0" then 1 else 0

theorem generateCFG_acyclic_witness :
    cfgBlocksEx.Pairwise (fun b1 b2 => b1.ind < b2.ind)
    ∧ (∀ e ∈ generateCFG cfgBlocksEx, indOfEx e.1 < indOfEx e.2) :=
  ⟨by decide,
    (generateCFG_acyclic cfgBlocksEx indOfEx (by decide) (by decide) (by decide)).1⟩

/-! ### Software virtual-Z predecessor merge (`ResolveVirtualZ.run_pass`)

Per block, the incoming `zphase_acc` starts empty; for each CFG
predecessor, each `(frequency, phase)` item of its `ending_zphases` dict is
folded in: an unseen frequency is inserted, and a seen frequency whose
stored phase differs raises `ValueError` — the pass never picks one of two
conflicting values.  Dicts are embedded as association lists with
first-match lookup. -/

/-- First-match lookup in an association list (Python dict access). -/
def lookupQ (f : String) : List (String × ℚ) → Option ℚ
  | [] => none
  | (g, v) :: rest => if f = g then some v else lookupQ f rest

/-- Fold one predecessor's `ending_zphases` items into the accumulator. -/
def mergeDict (acc : List (String × ℚ)) : List (String × ℚ) →
    Except String (List (String × ℚ))
  | [] => .ok acc
  | (f, ph) :: rest =>
      match lookupQ f acc with
      | some v => if ph ≠ v then .error "Phase mismatch" else mergeDict acc rest
      | none => mergeDict (acc ++ [(f, ph)]) rest

/-- Fold all predecessors into the accumulator. -/
def mergePreds (acc : List (String × ℚ)) :
    List (List (String × ℚ)) → Except String (List (String × ℚ))
  | [] => .ok acc
  | pred :: rest =>
      match mergeDict acc pred with
      | .error e => .error e
      | .ok acc2 => mergePreds acc2 rest

/-- The incoming phase accumulator of a block: its predecessors'
`ending_zphases` merged into an initially empty dict. -/
def mergeZphases (preds : List (List (String × ℚ))) :
    Except String (List (String × ℚ)) :=
  mergePreds [] preds

/-- No two predecessors (including one and the same) assign different
phases to the same frequency. -/
def Consistent (preds : List (List (String × ℚ))) : Prop :=
  ∀ p1 ∈ preds, ∀ p2 ∈ preds, ∀ f v1 v2, (f, v1) ∈ p1 → (f, v2) ∈ p2 → v1 = v2

lemma lookupQ_append_some (f : String) (l1 l2 : List (String × ℚ)) (v : ℚ)
    (h : lookupQ f l1 = some v) : lookupQ f (l1 ++ l2) = some v := by
  induction l1 with
  | nil => simp [lookupQ] at h
  | cons x t ih =>
      obtain ⟨g, w⟩ := x
      by_cases hf : f = g
      · rw [lookupQ, if_pos hf] at h
        simpa [lookupQ, hf] using h
      · rw [lookupQ, if_neg hf] at h
        simpa [lookupQ, hf] using ih h

lemma lookupQ_append_none (f : String) (l1 l2 : List (String × ℚ))
    (h : lookupQ f l1 = none) : lookupQ f (l1 ++ l2) = lookupQ f l2 := by
  induction l1 with
  | nil => simp [lookupQ]
  | cons x t ih =>
      obtain ⟨g, w⟩ := x
      by_cases hf : f = g
      · rw [lookupQ, if_pos hf] at h
        simp at h
      · rw [lookupQ, if_neg hf] at h
        simpa [lookupQ, hf] using ih h

lemma mergeDict_ok_char (pred : List (String × ℚ)) :
    ∀ (acc acc2 : List (String × ℚ)), mergeDict acc pred = .ok acc2 →
      ∀ f v, lookupQ f acc2 = some v ↔ (lookupQ f acc = some v ∨ (f, v) ∈ pred) := by
  induction pred with
  | nil =>
      intro acc acc2 hok f v
      simp only [mergeDict, Except.ok.injEq] at hok
      subst hok
      simp
  | cons x rest ih =>
      intro acc acc2 hok f v
      obtain ⟨g, ph⟩ := x
      rw [mergeDict] at hok
      cases hg : lookupQ g acc with
      | some v0 =>
          rw [hg] at hok
          have hok2 : (if ph ≠ v0 then Except.error "Phase mismatch"
              else mergeDict acc rest) = Except.ok acc2 := hok
          by_cases hne : ph ≠ v0
          · rw [if_pos hne] at hok2
            exact absurd hok2 (by simp)
          · rw [if_neg hne] at hok2
            push_neg at hne
            subst hne
            rw [ih acc acc2 hok2 f v]
            constructor
            · rintro (h | h)
              · exact Or.inl h
              · exact Or.inr (by simp [h])
            · rintro (h | h)
              · exact Or.inl h
              · rcases List.mem_cons.mp h with heq | h2
                · injection heq with h1 h2
                  subst h1
                  subst h2
                  exact Or.inl hg
                · exact Or.inr h2
      | none =>
          rw [hg] at hok
          have hok2 : mergeDict (acc ++ [(g, ph)]) rest = Except.ok acc2 := hok
          rw [ih (acc ++ [(g, ph)]) acc2 hok2 f v]
          constructor
          · rintro (h | h)
            · by_cases hfg : f = g
              · subst hfg
                rw [lookupQ_append_none f acc _ hg] at h
                simp [lookupQ] at h
                refine Or.inr (List.mem_cons.mpr (Or.inl ?_))
                rw [h]
              · cases hacc : lookupQ f acc with
                | none =>
                    rw [lookupQ_append_none f acc _ hacc] at h
                    rw [lookupQ, if_neg hfg, lookupQ] at h
                    exact absurd h (by simp)
                | some w =>
                    rw [lookupQ_append_some f acc _ w hacc] at h
                    exact Or.inl h
            · exact Or.inr (by simp [h])
          · rintro (h | h)
            · exact Or.inl (lookupQ_append_some f acc _ v h)
            · rcases List.mem_cons.mp h with heq | h2
              · injection heq with h1 h2
                subst h1
                subst h2
                refine Or.inl ?_
                rw [lookupQ_append_none f acc _ hg]
                simp [lookupQ]
              · exact Or.inr h2

lemma mergeDict_ok_of_compat (pred : List (String × ℚ)) :
    ∀ (acc : List (String × ℚ)),
    (∀ f v v2, (f, v) ∈ pred → (f, v2) ∈ pred → v = v2) →
    (∀ f v v2, (f, v) ∈ pred → lookupQ f acc = some v2 → v = v2) →
    ∃ acc2, mergeDict acc pred = .ok acc2 := by
  induction pred with
  | nil => exact fun acc _ _ => ⟨acc, rfl⟩
  | cons x rest ih =>
      intro acc hps hpa
      obtain ⟨g, ph⟩ := x
      rw [mergeDict]
      cases hg : lookupQ g acc with
      | some v0 =>
          have hv0 : ph = v0 := hpa g ph v0 (by simp) hg
          obtain ⟨acc2, hrec⟩ := ih acc
            (fun f v v2 hv hv2 => hps f v v2 (by simp [hv]) (by simp [hv2]))
            (fun f v v2 hv hv2 => hpa f v v2 (by simp [hv]) hv2)
          refine ⟨acc2, ?_⟩
          show (if ph ≠ v0 then Except.error "Phase mismatch"
              else mergeDict acc rest) = Except.ok acc2
          rw [if_neg (by simp [hv0])]
          exact hrec
      | none =>
          have hrec := ih (acc ++ [(g, ph)])
            (fun f v v2 hv hv2 => hps f v v2 (by simp [hv]) (by simp [hv2]))
            (fun f v v2 hv hv2 => by
              by_cases hfg : f = g
              · subst hfg
                rw [lookupQ_append_none f acc _ hg] at hv2
                simp [lookupQ] at hv2
                subst hv2
                exact hps f v ph (by simp [hv]) (by simp)
              · cases hacc : lookupQ f acc with
                | none =>
                    rw [lookupQ_append_none f acc _ hacc] at hv2
                    rw [lookupQ, if_neg hfg, lookupQ] at hv2
                    exact absurd hv2 (by simp)
                | some w =>
                    rw [lookupQ_append_some f acc _ w hacc] at hv2
                    exact hpa f v v2 (by simp [hv]) (hacc.trans hv2))
          obtain ⟨acc2, hrec2⟩ := hrec
          exact ⟨acc2, hrec2⟩

lemma mergePreds_ok_char (todo : List (List (String × ℚ))) :
    ∀ (acc acc2 : List (String × ℚ)), mergePreds acc todo = .ok acc2 →
      ∀ f v, lookupQ f acc2 = some v ↔
        (lookupQ f acc = some v ∨ ∃ p ∈ todo, (f, v) ∈ p) := by
  induction todo with
  | nil =>
      intro acc acc2 hok f v
      simp only [mergePreds, Except.ok.injEq] at hok
      subst hok
      simp
  | cons pred rest ih =>
      intro acc acc2 hok f v
      rw [mergePreds] at hok
      cases hd : mergeDict acc pred with
      | error e => rw [hd] at hok; exact absurd hok (by simp)
      | ok accMid =>
          rw [hd] at hok
          rw [ih accMid acc2 hok f v, mergeDict_ok_char pred acc accMid hd f v]
          constructor
          · rintro ((h | h) | h)
            · exact Or.inl h
            · exact Or.inr ⟨pred, by simp, h⟩
            · obtain ⟨p, hp, hfv⟩ := h
              exact Or.inr ⟨p, by simp [hp], hfv⟩
          · rintro (h | ⟨p, hp, hfv⟩)
            · exact Or.inl (Or.inl h)
            · rcases List.mem_cons.mp hp with rfl | hp2
              · exact Or.inl (Or.inr hfv)
              · exact Or.inr ⟨p, hp2, hfv⟩

lemma mergePreds_ok_of_consistent (all : List (List (String × ℚ)))
    (hcons : Consistent all) :
    ∀ (todo : List (List (String × ℚ))) (acc : List (String × ℚ)),
    (∀ p ∈ todo, p ∈ all) →
    (∀ f v, lookupQ f acc = some v → ∃ p ∈ all, (f, v) ∈ p) →
    ∃ acc2, mergePreds acc todo = .ok acc2 := by
  intro todo
  induction todo with
  | nil => exact fun acc _ _ => ⟨acc, rfl⟩
  | cons pred rest ih =>
      intro acc hmem hchar
      have hpredall : pred ∈ all := hmem pred (by simp)
      obtain ⟨accMid, hd⟩ := mergeDict_ok_of_compat pred acc
        (fun f v v2 hv hv2 => hcons pred hpredall pred hpredall f v v2 hv hv2)
        (fun f v v2 hv hv2 => by
          obtain ⟨p, hp, hfv⟩ := hchar f v2 hv2
          exact hcons pred hpredall p hp f v v2 hv hfv)
      have hcharMid : ∀ f v, lookupQ f accMid = some v → ∃ p ∈ all, (f, v) ∈ p := by
        intro f v hv
        rcases (mergeDict_ok_char pred acc accMid hd f v).mp hv with h | h
        · exact hchar f v h
        · exact ⟨pred, hpredall, h⟩
      obtain ⟨acc2, hrest⟩ := ih accMid (fun p hp => hmem p (by simp [hp])) hcharMid
      refine ⟨acc2, ?_⟩
      rw [mergePreds, hd]
      exact hrest

/-- C6: during software virtual-Z folding, if two CFG predecessors' ending
phase accumulators assign different accumulated phases to the same
frequency, the merge raises a fatal error (it never picks one of the
values); otherwise it succeeds and the block's incoming accumulator maps a
frequency to a phase exactly when some predecessor's ending accumulator
does (the union of the predecessors' ending accumulators). -/
theorem resolveVZ_predecessor_merge (preds : List (List (String × ℚ))) :
    ((∃ p1 ∈ preds, ∃ p2 ∈ preds, ∃ f v1 v2,
        (f, v1) ∈ p1 ∧ (f, v2) ∈ p2 ∧ v1 ≠ v2) →
      ∃ e, mergeZphases preds = .error e)
    ∧ (Consistent preds →
      ∃ acc, mergeZphases preds = .ok acc ∧
        ∀ f v, lookupQ f acc = some v ↔ ∃ p ∈ preds, (f, v) ∈ p) := by
  constructor
  · rintro ⟨p1, hp1, p2, hp2, f, v1, v2, hv1, hv2, hne⟩
    cases h : mergeZphases preds with
    | error e => exact ⟨e, rfl⟩
    | ok acc =>
        exfalso
        have hchar := mergePreds_ok_char preds [] acc h
        have h1 : lookupQ f acc = some v1 :=
          (hchar f v1).mpr (Or.inr ⟨p1, hp1, hv1⟩)
        have h2 : lookupQ f acc = some v2 :=
          (hchar f v2).mpr (Or.inr ⟨p2, hp2, hv2⟩)
        exact hne (by injection h1.symm.trans h2)
  · intro hcons
    obtain ⟨acc, hok⟩ := mergePreds_ok_of_consistent preds hcons preds []
      (fun p hp => hp) (fun f v hv => by simp [lookupQ] at hv)
    refine ⟨acc, hok, fun f v => ?_⟩
    rw [mergePreds_ok_char preds [] acc hok f v]
    simp [lookupQ]

theorem resolveVZ_predecessor_merge_witness :
    ∃ e, mergeZphases [[("Q0.freq", (1 : ℚ) / 2)], [("Q0.freq", (1 : ℚ) / 4)]]
      = .error e :=
  (resolveVZ_predecessor_merge [[("Q0.freq", (1 : ℚ) / 2)], [("Q0.freq", (1 : ℚ) / 4)]]).1
    ⟨[("Q0.freq", (1 : ℚ) / 2)], by simp, [("Q0.freq", (1 : ℚ) / 4)], by simp,
      "Q0.freq", (1 : ℚ) / 2, (1 : ℚ) / 4, by simp, by simp, by norm_num⟩

/-! ### Hardware virtual-Z resolution (`ResolveHWVirtualZ.run_pass`)

A `bind_phase` instruction registers a frequency-to-register binding, is
popped, and a `SetVar(value=0, var, scope=vars[var].scope)` is inserted in
its place.  Later `VirtualZ` instructions on a bound frequency become
`Alu(add, phase, var, var)` register operations, and later pulses on a bound
frequency get their phase replaced by the bound register.  The phase-binding
registry of the `IRProgram` (whose module is not part of the sources here)
is modelled from the spec as a frequency-to-register map built up in
traversal order. -/

/-- A pulse phase: an immediate value or a register reference. -/
inductive PhaseRef where
  | pval (v : ℚ)
  | pvar (v : String)
deriving DecidableEq

/-- A pulse frequency: a numeric value or a named frequency. -/
inductive FreqRef where
  | fval (v : ℚ)
  | fname (f : String)
deriving DecidableEq

/-- Block-level instructions as the hardware virtual-Z pass sees them. -/
inductive VZInstr where
  | bindPhase (freq : String) (var : String)
  | virtualZ (freq : String) (phase : ℚ) (scope : Option (List String))
  | pulseV (freq : FreqRef) (phase : PhaseRef) (dest : String)
  | setVarV (value : ℚ) (var : String) (scope : List String)
  | aluV (op : String) (lhs : PhaseRef) (rhs : String) (out : String) (scope : List String)
  | otherV (name : String)
deriving DecidableEq

/-- How one instruction updates the phase-binding registry
(`register_phase_binding`, modelled from the spec as a map update). -/
def bindStep (b : String → Option String) (i : VZInstr) : String → Option String :=
  match i with
  | .bindPhase f v => Function.update b f (some v)
  | _ => b

/-- The binding registry after processing a list of instructions. -/
def bindingsAfter (b : String → Option String) (l : List VZInstr) :
    String → Option String :=
  l.foldl bindStep b

/-- The in-place rewrite of one instruction under the current bindings: a
`bind_phase` becomes `SetVar(0, var, vars[var].scope)`; a `VirtualZ` on a
bound frequency becomes `Alu(add, phase, var, var)` scoped to the bound
variable's scope; a pulse on a bound named frequency gets its phase replaced
by the bound register; everything else is untouched. -/
def transformOne (vars : String → List String) (b : String → Option String) :
    VZInstr → VZInstr
  | .bindPhase _ v => .setVarV 0 v (vars v)
  | .virtualZ f ph sc =>
      match b f with
      | some v => .aluV "add" (.pval ph) v v (vars v)
      | none => .virtualZ f ph sc
  | .pulseV (.fname f) phr dest =>
      match b f with
      | some v => .pulseV (.fname f) (.pvar v) dest
      | none => .pulseV (.fname f) phr dest
  | i => i

/-- `ResolveHWVirtualZ.run_pass` over one block's instruction list. -/
def runHWVZ (vars : String → List String) :
    List VZInstr → (String → Option String) → List VZInstr
  | [], _ => []
  | .bindPhase f v :: rest, b =>
      .setVarV 0 v (vars v) :: runHWVZ vars rest (Function.update b f (some v))
  | .virtualZ f ph sc :: rest, b =>
      (match b f with
       | some v => VZInstr.aluV "add" (.pval ph) v v (vars v)
       | none => VZInstr.virtualZ f ph sc) :: runHWVZ vars rest b
  | .pulseV (.fname f) phr dest :: rest, b =>
      (match b f with
       | some v => VZInstr.pulseV (.fname f) (.pvar v) dest
       | none => VZInstr.pulseV (.fname f) phr dest) :: runHWVZ vars rest b
  | i :: rest, b => i :: runHWVZ vars rest b

lemma runHWVZ_cons (vars : String → List String) (x : VZInstr) (rest : List VZInstr)
    (b : String → Option String) :
    runHWVZ vars (x :: rest) b
      = transformOne vars b x :: runHWVZ vars rest (bindStep b x) := by
  cases x with
  | bindPhase f v => rfl
  | virtualZ f ph sc => rfl
  | pulseV fr phr dest => cases fr with
      | fval q => rfl
      | fname f => rfl
  | setVarV a c d => rfl
  | aluV a c d e g => rfl
  | otherV n => rfl

lemma runHWVZ_get (vars : String → List String) :
    ∀ (instrs : List VZInstr) (b : String → Option String) (j : Nat),
      (runHWVZ vars instrs b).get? j
        = (instrs.get? j).map (transformOne vars (bindingsAfter b (instrs.take j))) := by
  intro instrs
  induction instrs with
  | nil => intro b j; simp [runHWVZ]
  | cons x rest ih =>
      intro b j
      rw [runHWVZ_cons]
      cases j with
      | zero => simp [bindingsAfter]
      | succ j2 =>
          simp only [List.get?_cons_succ, List.take_succ_cons]
          rw [ih (bindStep b x) j2]
          rfl

lemma bindingsAfter_origin :
    ∀ (l : List VZInstr) (b : String → Option String) (f v : String),
      bindingsAfter b l f = some v →
      b f = some v ∨ ∃ i, l.get? i = some (.bindPhase f v) := by
  intro l
  induction l with
  | nil => intro b f v h; exact Or.inl h
  | cons x rest ih =>
      intro b f v h
      rw [bindingsAfter, List.foldl_cons] at h
      rcases ih (bindStep b x) f v h with h2 | ⟨i, hi⟩
      · cases x with
        | bindPhase g w =>
            by_cases hfg : f = g
            · subst hfg
              rw [bindStep, Function.update_same] at h2
              refine Or.inr ⟨0, ?_⟩
              simp only [Option.some.injEq] at h2
              simp [h2]
            · rw [bindStep, Function.update_noteq hfg] at h2
              exact Or.inl h2
        | virtualZ a c d => exact Or.inl h2
        | pulseV a c d => exact Or.inl h2
        | setVarV a c d => exact Or.inl h2
        | aluV a c d e g => exact Or.inl h2
        | otherV n => exact Or.inl h2
      · exact Or.inr ⟨i + 1, by simpa using hi⟩

/-- C10: running the hardware virtual-Z pass from an empty binding registry,
every `bind_phase` instruction is removed and replaced in place (same
position, list length preserved) by `SetVar(0, var)` scoped to the bound
variable's declared scope; every later `VirtualZ` on the bound frequency
becomes the register operation `Alu(add, phase, var, var)` and every later
pulse on the bound frequency has its phase replaced by the bound register —
and in both cases the initializing `SetVar` occurs at a strictly earlier
position of the rewritten block, so the register is zeroed before any
phase accumulation or register-parameterized pulse that references it. -/
theorem hwvz_bind_phase_init (vars : String → List String) (instrs : List VZInstr) :
    ((runHWVZ vars instrs (fun _ => none)).length = instrs.length)
    ∧ (∀ i f v, instrs.get? i = some (.bindPhase f v) →
        (runHWVZ vars instrs (fun _ => none)).get? i = some (.setVarV 0 v (vars v)))
    ∧ (∀ j f ph sc v, instrs.get? j = some (.virtualZ f ph sc) →
        bindingsAfter (fun _ => none) (instrs.take j) f = some v →
        (runHWVZ vars instrs (fun _ => none)).get? j
            = some (.aluV "add" (.pval ph) v v (vars v))
        ∧ ∃ i, i < j ∧ instrs.get? i = some (.bindPhase f v)
            ∧ (runHWVZ vars instrs (fun _ => none)).get? i = some (.setVarV 0 v (vars v)))
    ∧ (∀ j f phr dest v, instrs.get? j = some (.pulseV (.fname f) phr dest) →
        bindingsAfter (fun _ => none) (instrs.take j) f = some v →
        (runHWVZ vars instrs (fun _ => none)).get? j
            = some (.pulseV (.fname f) (.pvar v) dest)
        ∧ ∃ i, i < j ∧ instrs.get? i = some (.bindPhase f v)
            ∧ (runHWVZ vars instrs (fun _ => none)).get? i = some (.setVarV 0 v (vars v))) := by
  have hlen : ∀ (l : List VZInstr) (b : String → Option String),
      (runHWVZ vars l b).length = l.length := by
    intro l
    induction l with
    | nil => intro b; rfl
    | cons x rest ih => intro b; rw [runHWVZ_cons]; simp [ih]
  have hbind : ∀ i f v, instrs.get? i = some (.bindPhase f v) →
      (runHWVZ vars instrs (fun _ => none)).get? i = some (.setVarV 0 v (vars v)) := by
    intro i f v hi
    rw [runHWVZ_get vars instrs _ i, hi]
    rfl
  have horigin : ∀ j f v, bindingsAfter (fun _ => none) (instrs.take j) f = some v →
      ∃ i, i < j ∧ instrs.get? i = some (.bindPhase f v)
        ∧ (runHWVZ vars instrs (fun _ => none)).get? i = some (.setVarV 0 v (vars v)) := by
    intro j f v hb
    rcases bindingsAfter_origin (instrs.take j) _ f v hb with h | ⟨i, hi⟩
    · exact absurd h (by simp)
    · have hilt : i < j := by
        by_contra hge
        push_neg at hge
        rw [List.get?_eq_none.mpr (by simp; omega)] at hi
        exact absurd hi (by simp)
      have hig : instrs.get? i = some (.bindPhase f v) := by
        rw [← List.get?_take hilt]
        exact hi
      exact ⟨i, hilt, hig, hbind i f v hig⟩
  refine ⟨hlen instrs _, hbind, ?_, ?_⟩
  · intro j f ph sc v hj hb
    constructor
    · rw [runHWVZ_get vars instrs _ j, hj]
      simp [transformOne, hb]
    · exact horigin j f v hb
  · intro j f phr dest v hj hb
    constructor
    · rw [runHWVZ_get vars instrs _ j, hj]
      simp [transformOne, hb]
    · exact horigin j f v hb

/-- A block binding `Q0.freq` to register `vz0` and then using it. -/
def hwvzInstrsEx : List VZInstr :=
  [ .bindPhase "Q0.freq" "vz0",
    .virtualZ "Q0.freq" (1 / 2) none,
    .pulseV (.fname "Q0.freq") (.pval 0) "Q0.qdrv" ]

theorem hwvz_bind_phase_init_witness :
    (runHWVZ (fun _ => ["Q0.qdrv"]) hwvzInstrsEx (fun _ => none)).get? 1
        = some (.aluV "add" (.pval (1 / 2)) "vz0" "vz0" ["Q0.qdrv"])
    ∧ (runHWVZ (fun _ => ["Q0.qdrv"]) hwvzInstrsEx (fun _ => none)).get? 0
        = some (.setVarV 0 "vz0" ["Q0.qdrv"]) := by
  obtain ⟨hlen, hbind, hvz, hpulse⟩ :=
    hwvz_bind_phase_init (fun _ => ["Q0.qdrv"]) hwvzInstrsEx
  obtain ⟨halu, i, hilt, hib, hiout⟩ :=
    hvz 1 "Q0.freq" (1 / 2) none "vz0" (by rfl)
      (by simp [hwvzInstrsEx, bindingsAfter, bindStep, Function.update])
  have hi0 : i = 0 := by omega
  subst hi0
  exact ⟨halu, hiout⟩

/-! ### Compiled-program persistence (`CompiledProgram.save`,
`load_compiled_program`)

`save` deep-copies `self.program` (a dict from per-core channel tuples to
symbolic instruction streams), adds the `fpga_config` entry, opens the file
— in read mode — and calls `json.dumps(progdict, f, indent=4)`, which
serializes to a discarded string instead of writing (`dump` would take the
file object; `dumps` receives it as `skipkeys`).  `load_compiled_program`
reads a JSON file and returns `FPGAConfig(**progdict['fpga_config'])` —
only the timing configuration, never the per-core instruction streams
(`CompiledProgram.load` raises `NotImplementedError`).  The data content of
the pair is embedded below; the round trip provably cannot reproduce the
program. -/

/-- A compiled program: per-core symbolic instruction streams plus the
timing configuration metadata. -/
structure CompiledProgramM where
  program : List (List String × List AsmOp)
  fpga_config : FPGAConfig

/-- The dict `CompiledProgram.save` assembles for serialization. -/
structure SaveDict where
  program : List (List String × List AsmOp)
  fpga_config : FPGAConfig

/-- The data `save` assembles (best case, ignoring the broken file write). -/
def saveDict (cp : CompiledProgramM) : SaveDict :=
  ⟨cp.program, cp.fpga_config⟩

/-- `load_compiled_program`: returns only `FPGAConfig(**progdict['fpga_config'])`. -/
def load_compiled_program (d : SaveDict) : FPGAConfig :=
  d.fpga_config

/-- C9 (code bug): the save/load round trip cannot reproduce the per-core
instruction streams — two compiled programs with different per-core streams
produce identical load results, because `load_compiled_program` returns
only the `FPGAConfig` and discards the program (and `save` never writes the
file it opens in read mode). -/
theorem compiled_program_roundtrip_loses_program :
    ∃ p1 p2 : CompiledProgramM,
      p1.program ≠ p2.program
      ∧ load_compiled_program (saveDict p1) = load_compiled_program (saveDict p2) := by
  refine ⟨⟨[(["Q0.qdrv", "Q0.rdrv", "Q0.rdlo"], [.phase_reset, .done_stb])], cfgEx⟩,
    ⟨[], cfgEx⟩, ?_, rfl⟩
  simp
